import Mathlib

/-
Verification development for the Tvog AI chat application.

The frontend logic (streaming SSE reassembly in `sendMessage`, markdown
segmentation in `renderMessageContent`, validation, password strength),
the `analyze-file` edge function, the row-level-security policies of the
SQL migrations and the account-deletion grace period are shallowly
embedded below.  Strings are modelled as `List Char`; JavaScript's
`JSON.parse` is modelled by an executable JSON parser; the streaming
loop is modelled chunk by chunk with an explicit buffer, exactly as the
source manipulates it.
-/

set_option linter.unusedVariables false

namespace TvogAI

abbrev Chars := List Char

/-- Whitespace recognised by JavaScript's `String.prototype.trim`. -/
def isJsSpace (c : Char) : Bool :=
  let n := c.toNat
  n = 0x09 || n = 0x0A || n = 0x0B || n = 0x0C || n = 0x0D || n = 0x20 ||
  n = 0xA0 || n = 0x1680 || (0x2000 ≤ n && n ≤ 0x200A) || n = 0x2028 ||
  n = 0x2029 || n = 0x202F || n = 0x205F || n = 0x3000 || n = 0xFEFF

/-- JavaScript `line.trim()`. -/
def jsTrim (l : Chars) : Chars :=
  ((l.dropWhile isJsSpace).reverse.dropWhile isJsSpace).reverse

/-- JavaScript `if (line.endsWith("\r")) line = line.slice(0, -1)`. -/
def stripCR (l : Chars) : Chars :=
  if l.getLast? = some '\r' then l.dropLast else l

/-- `buffer.indexOf("\n")` plus the two `slice` calls: the first line and
the remainder of the buffer, or `none` when the buffer holds no newline. -/
def breakAtNewline : Chars → Option (Chars × Chars)
  | [] => none
  | c :: rest =>
    if c = '\n' then some ([], rest)
    else
      match breakAtNewline rest with
      | none => none
      | some (a, b) => some (c :: a, b)

def openBrace : Char := Char.ofNat 123

def closeBrace : Char := Char.ofNat 125

/-- JSON values as produced by `JSON.parse`.  Numbers keep their lexical
parts (sign, integer digits, fraction digits, exponent part). -/
inductive Json where
  | null
  | bool (b : Bool)
  | num (neg : Bool) (ip fp ex : Chars)
  | str (s : Chars)
  | arr (elems : List Json)
  | obj (fields : List (Chars × Json))

def isDigitChar (c : Char) : Bool := 48 ≤ c.toNat && c.toNat ≤ 57

def hexDigitVal (c : Char) : Option Nat :=
  if isDigitChar c then some (c.toNat - 48)
  else if 97 ≤ c.toNat && c.toNat ≤ 102 then some (c.toNat - 87)
  else if 65 ≤ c.toNat && c.toNat ≤ 70 then some (c.toNat - 55)
  else none

/-- Whitespace accepted between JSON tokens by `JSON.parse`. -/
def isJsonWs (c : Char) : Bool :=
  c = ' ' || c = '\t' || c = '\n' || c = '\r'

def skipWs (cs : Chars) : Chars := cs.dropWhile isJsonWs

/-- Body of a JSON string after the opening quote: the decoded content
and the input following the closing quote. -/
def parseStringBody : Nat → Chars → Option (Chars × Chars)
  | 0, _ => none
  | _, [] => none
  | fuel + 1, c :: rest =>
    if c = '"' then some ([], rest)
    else if c = '\\' then
      match rest with
      | [] => none
      | e :: rest2 =>
        let cont : Char → Chars → Option (Chars × Chars) := fun ch r =>
          match parseStringBody fuel r with
          | some (s, r2) => some (ch :: s, r2)
          | none => none
        if e = '"' then cont '"' rest2
        else if e = '\\' then cont '\\' rest2
        else if e = '/' then cont '/' rest2
        else if e = 'b' then cont (Char.ofNat 8) rest2
        else if e = 'f' then cont (Char.ofNat 12) rest2
        else if e = 'n' then cont '\n' rest2
        else if e = 'r' then cont '\r' rest2
        else if e = 't' then cont '\t' rest2
        else if e = 'u' then
          match rest2 with
          | a :: b :: c2 :: d :: rest3 =>
            match hexDigitVal a, hexDigitVal b, hexDigitVal c2, hexDigitVal d with
            | some ha, some hb, some hc, some hd =>
              cont (Char.ofNat (((ha * 16 + hb) * 16 + hc) * 16 + hd)) rest3
            | _, _, _, _ => none
          | _ => none
        else none
    else if c.toNat < 0x20 then none
    else
      match parseStringBody fuel rest with
      | some (s, r2) => some (c :: s, r2)
      | none => none

/-- A JSON number starting at the head of the input. -/
def parseNumber (cs : Chars) : Option (Json × Chars) :=
  let sgn : Bool × Chars :=
    match cs with
    | '-' :: r => (true, r)
    | _ => (false, cs)
  let neg := sgn.1
  let cs1 := sgn.2
  let ip := cs1.takeWhile isDigitChar
  let r1 := cs1.dropWhile isDigitChar
  if ip = [] then none
  else if 1 < ip.length ∧ ip.head? = some '0' then none
  else
    let fracRes : Option (Chars × Chars) :=
      match r1 with
      | '.' :: r =>
        let d := r.takeWhile isDigitChar
        if d = [] then none else some (d, r.dropWhile isDigitChar)
      | _ => some ([], r1)
    match fracRes with
    | none => none
    | some (fp, r2) =>
      let expRes : Option (Chars × Chars) :=
        match r2 with
        | e :: r =>
          if e = 'e' ∨ e = 'E' then
            let sgn2 : Chars × Chars :=
              match r with
              | s :: r4 => if s = '+' ∨ s = '-' then ([s], r4) else ([], r)
              | [] => ([], r)
            let d := sgn2.2.takeWhile isDigitChar
            if d = [] then none
            else some (e :: sgn2.1 ++ d, sgn2.2.dropWhile isDigitChar)
          else some ([], r2)
        | [] => some ([], r2)
      match expRes with
      | none => none
      | some (ex, r5) => some (.num neg ip fp ex, r5)

mutual

/-- One JSON value (leading whitespace allowed), with the rest of the input. -/
def parseValue : Nat → Chars → Option (Json × Chars)
  | 0, _ => none
  | fuel + 1, cs =>
    match skipWs cs with
    | [] => none
    | c :: rest =>
      if c = 'n' then
        match rest with
        | 'u' :: 'l' :: 'l' :: r => some (.null, r)
        | _ => none
      else if c = 't' then
        match rest with
        | 'r' :: 'u' :: 'e' :: r => some (.bool true, r)
        | _ => none
      else if c = 'f' then
        match rest with
        | 'a' :: 'l' :: 's' :: 'e' :: r => some (.bool false, r)
        | _ => none
      else if c = '"' then
        match parseStringBody rest.length rest with
        | some (s, r) => some (.str s, r)
        | none => none
      else if c = '[' then
        match skipWs rest with
        | ']' :: r => some (.arr [], r)
        | r1 =>
          match parseElems fuel r1 with
          | some (js, r) => some (.arr js, r)
          | none => none
      else if c = openBrace then
        match skipWs rest with
        | r1 =>
          if r1.head? = some closeBrace then some (.obj [], r1.tail)
          else
            match parseFields fuel r1 with
            | some (fs, r) => some (.obj fs, r)
            | none => none
      else if c = '-' ∨ isDigitChar c then parseNumber (c :: rest)
      else none

/-- Comma-separated values of a non-empty JSON array, up to `]`. -/
def parseElems : Nat → Chars → Option (List Json × Chars)
  | 0, _ => none
  | fuel + 1, cs =>
    match parseValue fuel cs with
    | none => none
    | some (j, r) =>
      match skipWs r with
      | ',' :: r2 =>
        match parseElems fuel r2 with
        | some (js, r3) => some (j :: js, r3)
        | none => none
      | ']' :: r2 => some ([j], r2)
      | _ => none

/-- Comma-separated members of a non-empty JSON object, up to the
closing brace. -/
def parseFields : Nat → Chars → Option (List (Chars × Json) × Chars)
  | 0, _ => none
  | fuel + 1, cs =>
    match skipWs cs with
    | '"' :: rest =>
      match parseStringBody rest.length rest with
      | none => none
      | some (k, r) =>
        match skipWs r with
        | ':' :: r2 =>
          match parseValue fuel r2 with
          | none => none
          | some (v, r3) =>
            match skipWs r3 with
            | ',' :: r4 =>
              match parseFields fuel r4 with
              | some (fs, r5) => some ((k, v) :: fs, r5)
              | none => none
            | c :: r4 =>
              if c = closeBrace then some ([(k, v)], r4) else none
            | _ => none
        | _ => none
    | _ => none

end

/-- `JSON.parse`: a single JSON document with nothing but whitespace
around it, or failure.  The fuel bounds the recursion depth; twice the
input length is always sufficient. -/
def jsonParse (cs : Chars) : Option Json :=
  match parseValue (2 * cs.length + 2) cs with
  | some (j, r) => if skipWs r = [] then some j else none
  | none => none

/-- Result of evaluating `parsed.choices?.[0]?.delta?.content`:
the access can throw (member access on `null`), evaluate to JavaScript
`undefined`, or produce a JSON value. -/
inductive JsAccess where
  | thrown
  | undef
  | val (j : Json)

/-- Property lookup on a JSON value, as JavaScript member access.
`JSON.parse` keeps the last of duplicate keys, so lookup returns the
last binding.  Named properties other than object keys (`length` and the
like) never coincide with the keys used by the source, so non-objects
yield `undefined`. -/
def jsGetField (key : Chars) : Json → Option Json
  | .obj fs =>
    (fs.foldl (fun acc kv => if kv.1 = key then some kv.2 else acc) none)
  | _ => none

/-- JavaScript `v[0]` on a JSON value: array element, object key "0",
or the first character of a string. -/
def jsIndexZero : Json → Option Json
  | .arr xs => xs.head?
  | .obj fs => jsGetField ['0'] (.obj fs)
  | .str [] => none
  | .str (c :: _) => some (.str [c])
  | _ => none

/-- `parsed.choices?.[0]?.delta?.content` with JavaScript optional
chaining: the unguarded `.choices` access throws on `null`; each `?.`
short-circuits to `undefined` on `null`/`undefined`. -/
def getDeltaContent : Json → JsAccess
  | .null => .thrown
  | parsed =>
    match jsGetField "choices".data parsed with
    | none => .undef
    | some .null => .undef
    | some choices =>
      match jsIndexZero choices with
      | none => .undef
      | some .null => .undef
      | some elt =>
        match jsGetField "delta".data elt with
        | none => .undef
        | some .null => .undef
        | some delta =>
          match jsGetField "content".data delta with
          | none => .undef
          | some v => .val v

/-- A JSON number is falsy exactly when its value is zero. -/
def jsNumIsZero (ip fp : Chars) : Bool :=
  ip.all (· = '0') && fp.all (· = '0')

/-- JavaScript truthiness of a JSON value (`if (content)`). -/
def jsTruthy : Json → Bool
  | .null => false
  | .bool b => b
  | .num _ ip fp _ => !jsNumIsZero ip fp
  | .str s => !s.isEmpty
  | .arr _ => true
  | .obj _ => true

mutual

/-- JavaScript string coercion (`assistantMessage += content`).  Strings
coerce to themselves — the only case the streamed payloads exercise; the
other cases follow the JavaScript `toString` conventions, with numbers
rendered from their JSON lexeme. -/
def jsToString : Json → Chars
  | .null => "null".data
  | .bool true => "true".data
  | .bool false => "false".data
  | .num neg ip fp ex =>
    (if neg then ['-'] else []) ++ ip ++ (if fp = [] then [] else '.' :: fp) ++ ex
  | .str s => s
  | .arr xs => jsToStringElems xs
  | .obj _ => "[object Object]".data

/-- `Array.prototype.toString`: elements joined by commas, `null`
elements rendered empty. -/
def jsToStringElems : List Json → Chars
  | [] => []
  | [.null] => []
  | [x] => jsToString x
  | .null :: xs => ',' :: jsToStringElems xs
  | x :: xs => jsToString x ++ ',' :: jsToStringElems xs

end

/- ===== The streaming loop of `sendMessage` (Chat.tsx) =====

  while ((newlineIndex = buffer.indexOf("\n")) !== -1) {
    let line = buffer.slice(0, newlineIndex);
    buffer = buffer.slice(newlineIndex + 1);
    if (line.endsWith("\r")) line = line.slice(0, -1);
    if (line.startsWith(":") || line.trim() === "") continue;
    if (!line.startsWith("data: ")) continue;
    const jsonStr = line.slice(6).trim();
    if (jsonStr === "[DONE]") break;
    try {
      const parsed = JSON.parse(jsonStr);
      const content = parsed.choices?.[0]?.delta?.content;
      if (content) { assistantMessage += content; ... }
    } catch (e) { buffer = line + "\n" + buffer; break; }
  }
-/

/-- What the body of the inner `while` does with one line. -/
inductive LineKind where
  | skip
  | done
  | stall
  | content (s : Chars)
deriving DecidableEq

/-- Classification of a popped line, following the source branch by
branch: `skip` is a `continue`, `done` the `[DONE]` break, `stall` the
catch branch (JSON parse failure, or the throwing access on a `null`
payload) that pushes the line back and breaks, and `content s` a parsed
delta whose truthy content `s` is appended. -/
def classifyCore (line : Chars) : LineKind :=
  if line.head? = some ':' ∨ jsTrim line = [] then .skip
  else if ¬ ("data: ".data.isPrefixOf line) then .skip
  else
    let jsonStr := jsTrim (line.drop 6)
    if jsonStr = "[DONE]".data then .done
    else
      match jsonParse jsonStr with
      | none => .stall
      | some parsed =>
        match getDeltaContent parsed with
        | .thrown => .stall
        | .undef => .skip
        | .val v => if jsTruthy v then .content (jsToString v) else .skip

def classify (line : Chars) : LineKind := classifyCore (stripCR line)

/-- The local state of the streaming loop: the carry-over `buffer` and
the accumulated `assistantMessage`. -/
structure SState where
  buffer : Chars
  acc : Chars
deriving DecidableEq

/-- The inner `while ((newlineIndex = buffer.indexOf("\n")) !== -1)`
loop.  The fuel only bounds the number of iterations; every iteration
removes at least one character from the buffer, so a fuel equal to the
buffer length never cuts the loop short. -/
def innerLoop : Nat → SState → SState
  | 0, st => st
  | fuel + 1, st =>
    match breakAtNewline st.buffer with
    | none => st
    | some (line, rest) =>
      match classify line with
      | .skip => innerLoop fuel ⟨rest, st.acc⟩
      | .done => ⟨rest, st.acc⟩
      | .stall => ⟨stripCR line ++ '\n' :: rest, st.acc⟩
      | .content s => innerLoop fuel ⟨rest, st.acc ++ s⟩

/-- One iteration of the outer `while (true)` read loop: append the
decoded chunk to the buffer and drain complete lines. -/
def processChunk (st : SState) (chunk : Chars) : SState :=
  innerLoop (st.buffer ++ chunk).length ⟨st.buffer ++ chunk, st.acc⟩

/-- The whole read loop over the chunks delivered by the reader. -/
def processChunks (st : SState) (chunks : List Chars) : SState :=
  chunks.foldl processChunk st

/-- The `assistantMessage` accumulated by the streaming loop over a
given chunk delivery. -/
def runStream (chunks : List Chars) : Chars :=
  (processChunks ⟨[], []⟩ chunks).acc

/- ===== Line-level description of the loop ===== -/

/-- How a run over a list of complete lines ends. -/
inductive StopKind where
  | ran
  | donePart (rest : List Chars)
  | stallPart (l : Chars) (rest : List Chars)

/-- Line-level execution: fold `classify` over the lines, stopping at
the first `[DONE]` or pushed-back line. -/
def runL (acc : Chars) : List Chars → Chars × StopKind
  | [] => (acc, .ran)
  | l :: rest =>
    match classify l with
    | .skip => runL acc rest
    | .content s => runL (acc ++ s) rest
    | .done => (acc, .donePart rest)
    | .stall => (acc, .stallPart l rest)

/-- Encode a list of newline-free lines as the character stream that
delivers each of them terminated by `'\n'`. -/
def encodeLines (ls : List Chars) : Chars := (ls.map (· ++ ['\n'])).flatten

/-- Split a character stream into its complete lines and the trailing
fragment after the last newline. -/
def splitLines : Chars → List Chars × Chars
  | [] => ([], [])
  | c :: rest =>
    let r := splitLines rest
    if c = '\n' then ([] :: r.1, r.2)
    else
      match r.1 with
      | [] => ([], c :: r.2)
      | l :: ls => ((c :: l) :: ls, r.2)

/-- `line.startsWith("data: ")` on the CR-stripped line. -/
def isDataLine (l : Chars) : Bool := "data: ".data.isPrefixOf (stripCR l)

/-- No `data: ` line follows the first line whose payload is `[DONE]`
(the shape of every server-sent-events stream the vendor emits). -/
def noDataAfterDone : List Chars → Bool
  | [] => true
  | l :: rest =>
    match classify l with
    | .done => rest.all (fun x => !(isDataLine x))
    | _ => noDataAfterDone rest

/- ===== The claim-level description of the accumulated message ===== -/

/-- The trimmed payload of a `data: ` line. -/
def dataPayload (l : Chars) : Chars := jsTrim ((stripCR l).drop 6)

/-- The `choices[0].delta.content` field of a payload, when it parses
and the field holds a string. -/
def contentField (p : Chars) : Option Chars :=
  match jsonParse p with
  | none => none
  | some j =>
    match getDeltaContent j with
    | .val (.str s) => some s
    | _ => none

/-- The value the claim describes: the concatenation, in stream order,
of the `choices[0].delta.content` fields of the data lines preceding the
first `[DONE]`, skipping data lines that carry no such field. -/
def specConcat : List Chars → Chars
  | [] => []
  | l :: rest =>
    if isDataLine l then
      if dataPayload l = "[DONE]".data then []
      else
        match contentField (dataPayload l) with
        | some s => s ++ specConcat rest
        | none => specConcat rest
    else specConcat rest

/-- A comment line: `line.startsWith(":")` after CR-stripping. -/
def isCommentLine (l : Chars) : Bool := (stripCR l).head? = some ':'

/-- A blank line: `line.trim() === ""` after CR-stripping. -/
def isBlankLine (l : Chars) : Bool := jsTrim (stripCR l) = []

/-- Well-formedness exactly as the claim words it: every line is a
comment line, a blank line, or a `data: ` line whose payload is valid
JSON or the literal `[DONE]`. -/
def claimWfLine (l : Chars) : Bool :=
  !(l.contains '\n') &&
  (isCommentLine l || isBlankLine l ||
    (isDataLine l &&
      (dataPayload l = "[DONE]".data || (jsonParse (dataPayload l)).isSome)))

/-- Strengthened well-formedness: additionally the payload is not the
JSON literal `null` (whose member access throws) and the
`choices[0].delta.content` field, when present, is a string. -/
def goodPayload (p : Chars) : Bool :=
  p = "[DONE]".data ||
    match jsonParse p with
    | none => false
    | some j =>
      match getDeltaContent j with
      | .thrown => false
      | .undef => true
      | .val (.str _) => true
      | .val _ => false

def wfLine (l : Chars) : Bool :=
  !(l.contains '\n') &&
  (isCommentLine l || isBlankLine l ||
    (isDataLine l && goodPayload (dataPayload l)))

/- ===== `renderMessageContent` (Chat.tsx): markdown segmentation =====

  const combinedRegex = /```(\w+)?\n([\s\S]*?)```|!\[([^\]]*)\]\(([^)]+)\)/g;

The global exec loop scans left to right; at each position the code
alternative is tried before the image alternative; `(\w+)?` is a maximal
word-character run (no word character can satisfy the following `\n`,
so backtracking never helps), and the lazy `[\s\S]*?` stops at the
earliest closing triple backtick. -/

inductive Seg where
  | text (s : Chars)
  | code (lang : Option Chars) (body : Chars)
  | img (alt : Chars) (src : Chars)
deriving DecidableEq

/-- `\w`: ASCII letters, digits and underscore. -/
def isWordChar (c : Char) : Bool :=
  isDigitChar c || (65 ≤ c.toNat && c.toNat ≤ 90) ||
    (97 ≤ c.toNat && c.toNat ≤ 122) || c = '_'

/-- Split at the earliest occurrence of a triple backtick: the part
before it and the part after it. -/
def splitAtTicks : Chars → Option (Chars × Chars)
  | [] => none
  | c :: rest =>
    if "```".data.isPrefixOf (c :: rest) then some ([], (c :: rest).drop 3)
    else
      match splitAtTicks rest with
      | none => none
      | some (a, b) => some (c :: a, b)

/-- The code-block alternative anchored at the start of `s`: the
optional language tag (`match[1]`), the body (`match[2]`) and the input
following the match. -/
def tryCode (s : Chars) : Option (Option Chars × Chars × Chars) :=
  if "```".data.isPrefixOf s then
    match (s.drop 3).dropWhile isWordChar with
    | '\n' :: r2 =>
      match splitAtTicks r2 with
      | some (body, after) =>
        some ((if (s.drop 3).takeWhile isWordChar = [] then none
          else some ((s.drop 3).takeWhile isWordChar)), body, after)
      | none => none
    | _ => none
  else none

/-- The image alternative anchored at the start of `s`: alt text
(`match[3]`), source (`match[4]`) and the input following the match. -/
def tryImg (s : Chars) : Option (Chars × Chars × Chars) :=
  match s with
  | '!' :: '[' :: t =>
    match t.dropWhile (· ≠ ']') with
    | ']' :: '(' :: u =>
      if u.takeWhile (· ≠ ')') = [] then none
      else
        match u.dropWhile (· ≠ ')') with
        | ')' :: after =>
          some (t.takeWhile (· ≠ ']'), u.takeWhile (· ≠ ')'), after)
        | _ => none
    | _ => none
  | _ => none

/-- The text accumulated between matches becomes one segment, pushed
only when non-empty, as the source pushes gap spans. -/
def emitText (acc : Chars) : List Seg :=
  if acc = [] then [] else [.text acc]

/-- The exec loop of `renderMessageContent`: try a match at the current
position (code first, then image, as regex alternation prefers the
earlier alternative), otherwise shift one character into the current
text gap.  The fuel bounds the number of scan steps; the input length is
always sufficient since every step consumes at least one character. -/
def scanSegs : Nat → Chars → Chars → List Seg
  | 0, acc, s => emitText (acc ++ s)
  | fuel + 1, acc, s =>
    match s with
    | [] => emitText acc
    | c :: rest =>
      match tryCode s with
      | some (lang, body, after) =>
        emitText acc ++ .code lang body :: scanSegs fuel [] after
      | none =>
        match tryImg s with
        | some (alt, src, after) =>
          emitText acc ++ .img alt src :: scanSegs fuel [] after
        | none => scanSegs fuel (acc ++ [c]) rest

/-- The ordered segment sequence produced by `renderMessageContent`. -/
def renderMessageContent (s : Chars) : List Seg := scanSegs s.length [] s

/-- Re-serialization of one segment, as the claim describes it: text
verbatim, a code segment as three backticks, the language tag when
present, a newline, the body and three backticks; an image segment as
the markdown image syntax. -/
def serializeSeg : Seg → Chars
  | .text s => s
  | .code none body => "```".data ++ '\n' :: (body ++ "```".data)
  | .code (some lang) body => "```".data ++ lang ++ '\n' :: (body ++ "```".data)
  | .img alt src => '!' :: '[' :: (alt ++ ']' :: '(' :: (src ++ [')']))

def serializeSegs (segs : List Seg) : Chars := (segs.map serializeSeg).flatten

/- ===== Row-level security policies of the SQL migrations =====

`auth.uid()` is modelled as an `Option Nat` (`none` for an
unauthenticated request); rows carry the columns the policies read.
SQL `NULL` comparison semantics make `auth.uid() = col` false whenever
`auth.uid()` is `NULL`, which `uid = some col` captures. -/

structure ProfileRow where
  id : Nat

structure ConversationRow where
  id : Nat
  user_id : Nat

structure MessageRow where
  id : Nat
  conversation_id : Nat
  file_url : Option Chars

structure StorageObjectRow where
  bucket_id : Chars
  name : Chars

structure DB where
  conversations : List ConversationRow
  messages : List MessageRow

def chatFilesBucket : Chars := "chat-files".data

/-- "Users can view their own profile": `USING (auth.uid() = id)`. -/
def policyProfilesSelect (uid : Option Nat) (row : ProfileRow) : Bool :=
  uid = some row.id

/-- "Users can update their own profile": `USING (auth.uid() = id)`. -/
def policyProfilesUpdate (uid : Option Nat) (row : ProfileRow) : Bool :=
  uid = some row.id

/-- "Users can insert their own profile": `WITH CHECK (auth.uid() = id)`. -/
def policyProfilesInsert (uid : Option Nat) (row : ProfileRow) : Bool :=
  uid = some row.id

/-- `EXISTS (SELECT 1 FROM conversations WHERE conversations.id =
<cid> AND conversations.user_id = auth.uid())`. -/
def ownsConversation (db : DB) (uid : Option Nat) (cid : Nat) : Bool :=
  db.conversations.any (fun c => c.id = cid && uid = some c.user_id)

/-- "Users can update messages in their conversations" (USING and WITH
CHECK coincide). -/
def policyMessagesUpdate (db : DB) (uid : Option Nat) (m : MessageRow) : Bool :=
  ownsConversation db uid m.conversation_id

/-- "Users can delete messages in their conversations". -/
def policyMessagesDelete (db : DB) (uid : Option Nat) (m : MessageRow) : Bool :=
  ownsConversation db uid m.conversation_id

/-- "Users can view files in their conversations": the object belongs
to the `chat-files` bucket and a message whose `file_url` is the object
name sits in a conversation owned by `auth.uid()`. -/
def policyStorageSelect (db : DB) (uid : Option Nat) (o : StorageObjectRow) : Bool :=
  o.bucket_id = chatFilesBucket &&
    db.messages.any (fun m =>
      m.file_url = some o.name && ownsConversation db uid m.conversation_id)

/-- "Users can delete their own files": same predicate as the view
policy. -/
def policyStorageDelete (db : DB) (uid : Option Nat) (o : StorageObjectRow) : Bool :=
  o.bucket_id = chatFilesBucket &&
    db.messages.any (fun m =>
      m.file_url = some o.name && ownsConversation db uid m.conversation_id)

/-- "Users can upload files to their conversations": `WITH CHECK
(bucket_id = 'chat-files' AND auth.uid() IS NOT NULL)`. -/
def policyStorageInsert (uid : Option Nat) (o : StorageObjectRow) : Bool :=
  o.bucket_id = chatFilesBucket && uid.isSome

/-- Modelled from the spec: the migration creating the `conversations`
table and its row policies is not under src/; per the spec the rows are
"gated by row-level security predicates comparing the authenticated
identity to row ownership columns", here the conversation's `user_id`. -/
def policyConversationsAll (uid : Option Nat) (c : ConversationRow) : Bool :=
  uid = some c.user_id

/-- Modelled from the spec: the migration creating the `messages` table
with its SELECT/INSERT policies is not under src/; per the spec access
compares the authenticated identity to the owning conversation's
`user_id`, as the later UPDATE/DELETE policies do. -/
def policyMessagesSelect (db : DB) (uid : Option Nat) (m : MessageRow) : Bool :=
  ownsConversation db uid m.conversation_id

/-- Modelled from the spec, as `policyMessagesSelect`. -/
def policyMessagesInsert (db : DB) (uid : Option Nat) (m : MessageRow) : Bool :=
  ownsConversation db uid m.conversation_id

/-- The ownership column values of a governed row: the profile's own
id. -/
def profileOwners (row : ProfileRow) : List Nat := [row.id]

def conversationOwners (c : ConversationRow) : List Nat := [c.user_id]

/-- Owners of a message: `user_id` of its owning conversation. -/
def messageOwners (db : DB) (m : MessageRow) : List Nat :=
  (db.conversations.filter (fun c => c.id = m.conversation_id)).map (·.user_id)

/-- Owners of a storage object: `user_id` of every conversation holding
a message whose `file_url` is the object name. -/
def storageOwners (db : DB) (name : Chars) : List Nat :=
  ((db.conversations.filter (fun c =>
    db.messages.any (fun m =>
      m.file_url = some name && m.conversation_id = c.id))).map (·.user_id))

/-- The claim's notion of an ownership-gated predicate: whoever passes
it is identified by an ownership column of the governed row. -/
def OwnershipGated {α : Type} (owners : α → List Nat)
    (policy : Option Nat → α → Bool) : Prop :=
  ∀ uid x, policy uid x = true → ∃ o ∈ owners x, uid = some o

/- ===== `sendMessage` / `regenerateResponse` (Chat.tsx) as traces =====

The externally visible effects of one invocation: database writes, the
storage upload, the single chat-endpoint fetch and the toasts.  The
environment fixes the outcome of every awaited call. -/

inductive ChatAction where
  | toast (title : Chars) (description : Chars) (destructive : Bool)
  | insertConversation
  | insertMessage (role : Chars) (content : Chars)
  | uploadFile
  | fetchChat
  | deleteMessage
  | updateConversation
deriving DecidableEq

structure ChatState where
  hasUser : Bool
  isLoading : Bool
  isUploading : Bool
  input : Chars
  hasSelectedFile : Bool
  fileName : Chars
  currentConversation : Option Nat
  messageRoles : List Chars

structure ChatEnv where
  createConvOk : Option Nat
  uploadOk : Bool
  insertOk : Bool
  respOk : Bool
  respError : Option Chars
  hasBody : Bool
  chunks : List Chars

/-- `errorData.error || "Failed to get response"`: the `error` field of
the non-OK response body, with the fallback when the field is absent or
falsy (the empty string). -/
def chatErrMsg (env : ChatEnv) : Chars :=
  match env.respError with
  | some s => if s = [] then "Failed to get response".data else s
  | none => "Failed to get response".data

/-- `content: input || (fileData ? \x60Sent file: ...\x60 : "")`. -/
def userContent (st : ChatState) : Chars :=
  if st.input = [] then
    if st.hasSelectedFile then "Sent file: ".data ++ st.fileName else []
  else st.input

/-- The try-block after a successful fetch: missing body throws
"No response stream" into the catch; otherwise the streaming loop runs
and the assistant message and conversation timestamp are written. -/
def smStream (env : ChatEnv) : List ChatAction :=
  if env.hasBody = false then
    [.toast "Error".data "No response stream".data true]
  else
    [.insertMessage "assistant".data (runStream env.chunks), .updateConversation]

/-- The fetch to the chat endpoint and what follows it. -/
def smFetchPhase (env : ChatEnv) : List ChatAction :=
  .fetchChat ::
    (if env.respOk = false then [.toast "Error".data (chatErrMsg env) true]
     else smStream env)

/-- Insertion of the user message row; on error a toast and return. -/
def smInsertPhase (st : ChatState) (env : ChatEnv) : List ChatAction :=
  .insertMessage "user".data (userContent st) ::
    (if env.insertOk = false then
      [.toast "Error".data "Failed to save message".data true]
     else smFetchPhase env)

/-- The optional file upload; `uploadFile` itself toasts on failure and
`sendMessage` returns when it yields no file data. -/
def smUploadPhase (st : ChatState) (env : ChatEnv) : List ChatAction :=
  if st.hasSelectedFile then
    if env.uploadOk then .uploadFile :: smInsertPhase st env
    else [.uploadFile, .toast "Upload failed".data [] true]
  else smInsertPhase st env

/-- Creation of a conversation when none is current. -/
def smConvPhase (st : ChatState) (env : ChatEnv) : List ChatAction :=
  match st.currentConversation with
  | some _ => smUploadPhase st env
  | none =>
    .insertConversation ::
      (match env.createConvOk with
       | none => [.toast "Error".data "Failed to create conversation".data true]
       | some _ => smUploadPhase st env)

/-- One invocation of `sendMessage`, transcribed guard by guard:
the loading/uploading guard, the empty-message check, the zod schema
(`.trim().min(1).max(4000)`; inside the branch the trimmed input is
non-empty, so only the length bound can fail), then the write phases. -/
def sendMessageTrace (st : ChatState) (env : ChatEnv) : List ChatAction :=
  if st.hasUser = false ∨ st.isLoading = true ∨ st.isUploading = true then []
  else if jsTrim st.input = [] ∧ st.hasSelectedFile = false then
    [.toast "Cannot send empty message".data
      "Please enter a message or attach a file".data true]
  else if jsTrim st.input ≠ [] ∧ 4000 < (jsTrim st.input).length then
    [.toast "Invalid message".data
      "Message must be less than 4000 characters".data true]
  else smConvPhase st env

/-- One invocation of `regenerateResponse(messageIndex)`: the guard on
`currentConversation`/`isLoading`, the check that the preceding message
is a user message, then deletion, the single fetch and the streaming
loop. -/
def regenerateTrace (st : ChatState) (env : ChatEnv) (messageIndex : Nat) :
    List ChatAction :=
  if st.currentConversation = none ∨ st.isLoading = true then []
  else if messageIndex = 0 ∨
      st.messageRoles.get? (messageIndex - 1) ≠ some "user".data then []
  else
    .deleteMessage :: .fetchChat ::
      (if env.respOk = false then [.toast "Error".data (chatErrMsg env) true]
       else if env.hasBody = false then
        [.toast "Error".data "No response stream".data true]
       else
        [.insertMessage "assistant".data (runStream env.chunks),
         .toast "Response regenerated".data [] false])

/-- Number of chat-endpoint fetches in a trace. -/
def fetchCount (tr : List ChatAction) : Nat := tr.count .fetchChat

/-- The no-retry shape the error-handling claim describes: at most one
fetch, and if a fetch happened at all, the trace ends right after it
with the destructive toast carrying `msg` — nothing is retried and no
recovery action follows. -/
def NoRetryTrace (msg : Chars) (tr : List ChatAction) : Prop :=
  fetchCount tr ≤ 1 ∧
  (ChatAction.fetchChat ∈ tr →
    ∃ pre, tr = pre ++ [ChatAction.fetchChat,
        ChatAction.toast "Error".data msg true] ∧
      ChatAction.fetchChat ∉ pre)

/-- Database-write actions: conversation creation and message rows. -/
def isInsertAction : ChatAction → Bool
  | .insertConversation => true
  | .insertMessage _ _ => true
  | _ => false

def noInsertActions (tr : List ChatAction) : Bool :=
  tr.all (fun a => !(isInsertAction a))

/- ===== The `analyze-file` edge function ===== -/

inductive RespBody where
  | analysisBody (a : Chars)
  | errorBody (e : Chars)
deriving DecidableEq

/-- An HTTP response of the function: status, body (`none` for the
bodyless CORS preflight answer) and whether the JSON content type was
set. -/
structure HttpResponse where
  status : Nat
  body : Option RespBody
  jsonContentType : Bool
deriving DecidableEq

structure AnalyzeReq where
  fileType : Option Chars

/-- Outcomes of the awaited calls inside the handler; `Except` errors
carry the message of the exception the call throws. -/
structure AnalyzeEnv where
  reqJson : Except Chars AnalyzeReq
  hasApiKey : Bool
  fileFetch : Except Chars (Nat × Chars)
  gatewayStatus : Except Chars Nat
  gatewayAnalysis : Except Chars (Option Chars)

def optionsMethod : Chars := "OPTIONS".data

/-- `fileType?.startsWith("image/")`. -/
def isImageType (t : Option Chars) : Bool :=
  match t with
  | some s => "image/".data.isPrefixOf s
  | none => false

/-- The non-image branch of the handler: fetch the file content; a
network throw or a non-2xx response raises "Could not fetch file
content" (caught and re-thrown by the inner try/catch). -/
def analyzeFilePhase (req : AnalyzeReq) (env : AnalyzeEnv) : Except Chars Unit :=
  if isImageType req.fileType then .ok ()
  else
    match env.fileFetch with
    | .error _ => .error "Could not fetch file content".data
    | .ok (status, _) =>
      if 200 ≤ status ∧ status < 300 then .ok ()
      else .error "Could not fetch file content".data

/-- The `serve` handler of `supabase/functions/analyze-file/index.ts`,
transcribed branch by branch.  `fetch` results are OK for 2xx
statuses. -/
def analyzeFileHandler (method : Chars) (env : AnalyzeEnv) : HttpResponse :=
  if method = optionsMethod then ⟨200, none, false⟩
  else
    match env.reqJson with
    | .error m => ⟨500, some (.errorBody m), true⟩
    | .ok req =>
      if env.hasApiKey = false then
        ⟨500, some (.errorBody "LOVABLE_API_KEY is not configured".data), true⟩
      else
        match analyzeFilePhase req env with
        | .error m => ⟨500, some (.errorBody m), true⟩
        | .ok _ =>
          match env.gatewayStatus with
          | .error m => ⟨500, some (.errorBody m), true⟩
          | .ok status =>
            if 200 ≤ status ∧ status < 300 then
              match env.gatewayAnalysis with
              | .error m => ⟨500, some (.errorBody m), true⟩
              | .ok c =>
                let analysis : Chars :=
                  match c with
                  | some s => if s = [] then "Unable to analyze the file.".data else s
                  | none => "Unable to analyze the file.".data
                ⟨200, some (.analysisBody analysis), true⟩
            else if status = 429 then
              ⟨429, some (.errorBody
                "Rate limits exceeded, please try again later.".data), true⟩
            else if status = 402 then
              ⟨402, some (.errorBody
                "Payment required, please add funds to your workspace.".data), true⟩
            else ⟨500, some (.errorBody "AI gateway error".data), true⟩

/-- The phases preceding the gateway call all succeeded. -/
def analyzePreOk (env : AnalyzeEnv) : Prop :=
  (∃ req, env.reqJson = .ok req ∧
    (isImageType req.fileType = true ∨
      ∃ status text, env.fileFetch = .ok (status, text) ∧
        200 ≤ status ∧ status < 300)) ∧
  env.hasApiKey = true

/- ===== Account deletion grace period ===== -/

/-- Timestamps are integers in days. -/
def gracePeriodDays : Int := 7

structure AccountState where
  sched : Option Int
  deleted : Bool

inductive AccountEvent where
  | scheduleDeletion (t : Int)
  | signIn (t : Int)
  | runDeleteExpired (t : Int)

/-- One event against the profile row:
`handleAccountDeletion` sets `deletion_scheduled_at = now`;
a successful verified sign-in (`handleAuth`) nulls a pending
`deletion_scheduled_at`; `delete_expired_accounts` deletes the user when
`deletion_scheduled_at IS NOT NULL AND deletion_scheduled_at <
NOW() - INTERVAL '7 days'`.  A deleted account has no profile row left,
so later events do nothing. -/
def accountStep (st : AccountState) (e : AccountEvent) : AccountState :=
  if st.deleted then st
  else
    match e with
    | .scheduleDeletion t => { st with sched := some t }
    | .signIn _ =>
      match st.sched with
      | some _ => { st with sched := none }
      | none => st
    | .runDeleteExpired t =>
      match st.sched with
      | some s => if s < t - gracePeriodDays then { st with deleted := true } else st
      | none => st

def runAccount (st : AccountState) (es : List AccountEvent) : AccountState :=
  es.foldl accountStep st

/- ===== `PasswordStrengthIndicator` ===== -/

def pwLenReq (p : Chars) : Bool := 8 ≤ p.length

def pwUpperReq (p : Chars) : Bool :=
  p.any (fun c => 65 ≤ c.toNat && c.toNat ≤ 90)

def pwLowerReq (p : Chars) : Bool :=
  p.any (fun c => 97 ≤ c.toNat && c.toNat ≤ 122)

def pwDigitReq (p : Chars) : Bool := p.any isDigitChar

/-- The characters of the class `[!@#$%^&*(),.?":\x7b\x7d|<>]`. -/
def pwSpecialChars : Chars :=
  ['!', '@', '#', '$', '%', '^', '&', '*', '(', ')', ',', '.', '?', '\"',
   ':', Char.ofNat 123, Char.ofNat 125, '|', '<', '>']

def pwSpecialReq (p : Chars) : Bool := p.any (fun c => pwSpecialChars.contains c)

/-- The five requirements, in source order. -/
def pwRequirements : List (Chars → Bool) :=
  [pwLenReq, pwUpperReq, pwLowerReq, pwDigitReq, pwSpecialReq]

/-- `requirements.filter((req) => req.test(password)).length`. -/
def metCount (p : Chars) : Nat := (pwRequirements.filter (fun r => r p)).length

/-- `(metRequirements.length / requirements.length) * 100`, exact in
floating point, hence `20 *` the met count. -/
def pwStrength (p : Chars) : Nat := metCount p * 20

inductive StrengthLabel where
  | noPassword
  | weak
  | medium
  | strong
deriving DecidableEq

/-- `getStrengthLabel`, branch by branch. -/
def getStrengthLabel (p : Chars) : StrengthLabel :=
  if pwStrength p = 0 then .noPassword
  else if pwStrength p < 40 then .weak
  else if pwStrength p < 80 then .medium
  else .strong

/-- Order of labels for the monotonicity statement. -/
def labelRank : StrengthLabel → Nat
  | .noPassword => 0
  | .weak => 1
  | .medium => 2
  | .strong => 3

/- ===== Specification devices for the streaming-loop proofs ===== -/

/-- The state in which `innerLoop` leaves a buffer made of the encoded
lines `ls` followed by a newline-free fragment `q`, described by the
line-level run: all lines drained, stopped at a `[DONE]` line (the rest
of the buffer untouched), or stopped at a pushed-back line. -/
def stopState (q : Chars) : Chars × StopKind → SState
  | (a, .ran) => ⟨q, a⟩
  | (a, .donePart rest) => ⟨encodeLines rest ++ q, a⟩
  | (a, .stallPart l rest) => ⟨stripCR l ++ '\n' :: (encodeLines rest ++ q), a⟩

/-- The possible loop states after a line-level run with outcome
`(a, stop)` over a stream whose trailing fragment is `q`: all lines
drained, pinned on a pushed-back line (re-stripped of trailing carriage
returns on every pop, hence only characterized by its classification),
or past a `[DONE]` break with a suffix of the following lines still
unprocessed in the buffer. -/
def midSpec (q : Chars) : Chars × StopKind → SState → Prop
  | (a, .ran), st => st = ⟨q, a⟩
  | (a, .stallPart _ rest), st =>
    ∃ l', classify l' = .stall ∧ '\n' ∉ l' ∧
      st = ⟨l' ++ '\n' :: (encodeLines rest ++ q), a⟩
  | (a, .donePart rest), st =>
    st.acc = a ∧ ∃ ds, ds <:+ rest ∧ st.buffer = encodeLines ds ++ q

/-- Invariant of the read loop: after consuming the character prefix
`p` of the stream, the loop state is determined (up to the slack
`midSpec` allows) by the line-level run over the complete lines of
`p`. -/
def midOk (p : Chars) (st : SState) : Prop :=
  midSpec (splitLines p).2 (runL [] (splitLines p).1) st

/- ===== Concrete stream data for counterexamples and witnesses ===== -/

/-- A data line whose payload carries the delta content "A". -/
def lineContentA : Chars :=
  ("data: \x7b\"choices\":[\x7b\"delta\":\x7b\"content\":\"A\"\x7d\x7d]\x7d").data

/-- A data line whose payload carries the delta content "B". -/
def lineContentB : Chars :=
  ("data: \x7b\"choices\":[\x7b\"delta\":\x7b\"content\":\"B\"\x7d\x7d]\x7d").data

/-- A data line whose payload is the valid JSON document `null`. -/
def lineNull : Chars := "data: null".data

/-- The terminating data line. -/
def lineDone : Chars := "data: [DONE]".data

/- ======================================================================
   Theorems and supporting lemmas
   ====================================================================== -/

theorem breakAtNewline_of_not_mem {l : Chars} (h : '\n' ∉ l) :
    breakAtNewline l = none := by
  induction l with
  | nil => rfl
  | cons c rest ih =>
    have hc : c ≠ '\n' := fun e => h (e ▸ List.mem_cons_self c rest)
    have hr : '\n' ∉ rest := fun m => h (List.mem_cons_of_mem _ m)
    simp [breakAtNewline, hc, ih hr]

theorem breakAtNewline_encode {l : Chars} (r : Chars) (h : '\n' ∉ l) :
    breakAtNewline (l ++ '\n' :: r) = some (l, r) := by
  induction l with
  | nil => simp [breakAtNewline]
  | cons c rest ih =>
    have hc : c ≠ '\n' := fun e => h (e ▸ List.mem_cons_self c rest)
    have hr : '\n' ∉ rest := fun m => h (List.mem_cons_of_mem _ m)
    simp [breakAtNewline, hc, ih hr]

theorem not_mem_stripCR {c : Char} {l : Chars} (h : c ∉ l) : c ∉ stripCR l := by
  unfold stripCR
  split
  · exact fun m => h ((List.dropLast_sublist l).subset m)
  · exact h

theorem encodeLines_nil : encodeLines [] = [] := rfl

theorem encodeLines_cons (l : Chars) (ls : List Chars) :
    encodeLines (l :: ls) = l ++ '\n' :: encodeLines ls := by
  simp [encodeLines]

theorem encodeLines_append (a b : List Chars) :
    encodeLines (a ++ b) = encodeLines a ++ encodeLines b := by
  simp [encodeLines]

theorem stripCR_of_ne {l : Chars} (h : ¬ l.getLast? = some '\r') :
    stripCR l = l := by
  unfold stripCR
  exact if_neg h

theorem jsTrim_append_cr (x : Chars) : jsTrim (x ++ ['\r']) = jsTrim x := by
  have hcr : isJsSpace '\r' = true := by decide
  unfold jsTrim
  rw [List.dropWhile_append]
  by_cases h : (x.dropWhile isJsSpace).isEmpty
  · simp [h, hcr, List.isEmpty_iff.mp h]
  · simp [h, hcr, List.reverse_append, List.dropWhile_cons]

theorem head?_append_cr {x : Chars} (hx : x ≠ []) :
    (x ++ ['\r']).head? = x.head? := by
  cases x with
  | nil => exact absurd rfl hx
  | cons c t => rfl

theorem prefix_data_append_cr (x : Chars) :
    ("data: ".data.isPrefixOf (x ++ ['\r'])) = ("data: ".data.isPrefixOf x) := by
  by_cases h : "data: ".data.isPrefixOf x
  · rw [h]
    have hp : "data: ".data <+: x := List.isPrefixOf_iff_prefix.mp h
    exact List.isPrefixOf_iff_prefix.mpr (hp.trans (List.prefix_append x ['\r']))
  · rw [Bool.eq_false_iff.mpr h]
    rw [Bool.eq_false_iff]
    intro hcon
    apply h
    have hp : "data: ".data <+: x ++ ['\r'] := List.isPrefixOf_iff_prefix.mp hcon
    rcases Nat.lt_or_ge x.length 6 with hlen | hlen
    · -- the alleged prefix would have to be all of x ++ ['\r'], but its
      -- last character is a carriage return, not a space
      have h6 : "data: ".data.length = 6 := by decide
      have hle : ("data: ".data).length ≤ (x ++ ['\r']).length := hp.length_le
      have hxlen : (x ++ ['\r']).length = x.length + 1 := by simp
      have hxl : x.length = 5 := by omega
      have heq : "data: ".data = x ++ ['\r'] := by
        have := List.prefix_iff_eq_take.mp hp
        rw [this]
        have : (x ++ ['\r']).length = 6 := by omega
        rw [List.take_of_length_le (by omega)]
      have h1 : ("data: ".data).getLast? = some ' ' := by decide
      have h2 : (x ++ ['\r']).getLast? = some '\r' := List.getLast?_concat x
      rw [heq, h2] at h1
      exact absurd (Option.some.inj h1) (by decide)
    · have := List.prefix_iff_eq_take.mp hp
      have h6 : "data: ".data.length = 6 := by decide
      rw [h6] at this
      rw [List.take_append_of_le_length hlen] at this
      exact List.isPrefixOf_iff_prefix.mpr
        (List.prefix_iff_eq_take.mpr (by rw [h6]; exact this))

theorem classifyCore_append_cr (x : Chars) :
    classifyCore (x ++ ['\r']) = classifyCore x := by
  unfold classifyCore
  have htrim := jsTrim_append_cr x
  cases hx : x with
  | nil =>
    have h1 : jsTrim ['\r'] = [] := by decide
    simp [h1, jsTrim]
  | cons c t =>
    rw [← hx]
    have hne : x ≠ [] := by rw [hx]; exact List.cons_ne_nil c t
    rw [head?_append_cr hne, htrim, prefix_data_append_cr]
    by_cases h1 : x.head? = some ':' ∨ jsTrim x = []
    · simp only [h1, if_true]
    · simp only [h1, if_false]
      by_cases h2 : "data: ".data.isPrefixOf x
      · simp only [h2, not_true, if_false]
        have hlen : 6 ≤ x.length := by
          have := (List.isPrefixOf_iff_prefix.mp h2).length_le
          simpa using this
        have hdrop : (x ++ ['\r']).drop 6 = x.drop 6 ++ ['\r'] :=
          List.drop_append_of_le_length hlen
        rw [hdrop, jsTrim_append_cr]
      · simp [h2]

theorem classify_stripCR (l : Chars) : classify (stripCR l) = classify l := by
  show classifyCore (stripCR (stripCR l)) = classifyCore (stripCR l)
  by_cases h : (stripCR l).getLast? = some '\r'
  · obtain ⟨y, hy⟩ : ∃ y, stripCR l = y ++ ['\r'] := by
      rcases List.eq_nil_or_concat (stripCR l) with hnil | ⟨y, a, hya⟩
      · rw [hnil] at h; simp at h
      · rw [List.concat_eq_append] at hya
        rw [hya, List.getLast?_concat] at h
        exact ⟨y, by rw [hya, Option.some.inj h]⟩
    rw [hy]
    have hstr : stripCR (y ++ ['\r']) = y := by
      unfold stripCR
      rw [List.getLast?_concat]
      simp
    rw [hstr, classifyCore_append_cr]
  · rw [stripCR_of_ne h]

theorem runL_acc (acc : Chars) (ls : List Chars) :
    runL acc ls = (acc ++ (runL [] ls).1, (runL [] ls).2) := by
  induction ls generalizing acc with
  | nil => simp [runL]
  | cons l ls ih =>
    cases hcl : classify l with
    | skip =>
      have h1 : runL acc (l :: ls) = runL acc ls := by simp [runL, hcl]
      have h2 : runL [] (l :: ls) = runL [] ls := by simp [runL, hcl]
      rw [h1, h2, ih acc]
    | done =>
      have h1 : runL acc (l :: ls) = (acc, .donePart ls) := by simp [runL, hcl]
      have h2 : runL [] (l :: ls) = ([], .donePart ls) := by simp [runL, hcl]
      rw [h1, h2]
      simp
    | stall =>
      have h1 : runL acc (l :: ls) = (acc, .stallPart l ls) := by simp [runL, hcl]
      have h2 : runL [] (l :: ls) = ([], .stallPart l ls) := by simp [runL, hcl]
      rw [h1, h2]
      simp
    | content s =>
      have h1 : runL acc (l :: ls) = runL (acc ++ s) ls := by simp [runL, hcl]
      have h2 : runL [] (l :: ls) = runL s ls := by simp [runL, hcl]
      rw [h1, h2, ih (acc ++ s), ih s]
      simp

theorem runL_append_ran {ls : List Chars} {a : Chars}
    (h : runL [] ls = (a, .ran)) (ms : List Chars) :
    runL [] (ls ++ ms) = (a ++ (runL [] ms).1, (runL [] ms).2) := by
  induction ls generalizing a with
  | nil =>
    simp [runL] at h
    subst h
    simp
  | cons l ls ih =>
    cases hcl : classify l with
    | skip =>
      rw [show runL [] (l :: ls) = runL [] ls by simp [runL, hcl]] at h
      rw [List.cons_append,
        show runL [] (l :: (ls ++ ms)) = runL [] (ls ++ ms) by simp [runL, hcl]]
      exact ih h
    | done => simp [runL, hcl] at h
    | stall => simp [runL, hcl] at h
    | content s =>
      rw [show runL [] (l :: ls) = runL s ls by simp [runL, hcl]] at h
      rw [runL_acc s ls] at h
      have h2 : (runL [] ls).2 = .ran := congrArg Prod.snd h
      have h1 : a = s ++ (runL [] ls).1 := (congrArg Prod.fst h).symm
      have hls : runL [] ls = ((runL [] ls).1, .ran) := by
        rw [← h2]
      rw [List.cons_append,
        show runL [] (l :: (ls ++ ms)) = runL s (ls ++ ms) by simp [runL, hcl],
        runL_acc s (ls ++ ms), ih hls, h1]
      simp

theorem runL_append_done {ls : List Chars} {a : Chars} {rest : List Chars}
    (h : runL [] ls = (a, .donePart rest)) (ms : List Chars) :
    runL [] (ls ++ ms) = (a, .donePart (rest ++ ms)) := by
  induction ls generalizing a with
  | nil => simp [runL] at h
  | cons l ls ih =>
    cases hcl : classify l with
    | skip =>
      rw [show runL [] (l :: ls) = runL [] ls by simp [runL, hcl]] at h
      rw [List.cons_append,
        show runL [] (l :: (ls ++ ms)) = runL [] (ls ++ ms) by simp [runL, hcl]]
      exact ih h
    | done =>
      rw [show runL [] (l :: ls) = ([], .donePart ls) by simp [runL, hcl]] at h
      obtain ⟨ha, hrest⟩ : [] = a ∧ ls = rest := by
        constructor
        · exact congrArg Prod.fst h
        · have := congrArg Prod.snd h
          simpa using this
      subst ha; subst hrest
      rw [List.cons_append,
        show runL [] (l :: (ls ++ ms)) = ([], .donePart (ls ++ ms)) by
          simp [runL, hcl]]
    | stall => simp [runL, hcl] at h
    | content s =>
      rw [show runL [] (l :: ls) = runL s ls by simp [runL, hcl]] at h
      rw [runL_acc s ls] at h
      have h2 : (runL [] ls).2 = .donePart rest := congrArg Prod.snd h
      have h1 : a = s ++ (runL [] ls).1 := (congrArg Prod.fst h).symm
      have hls : runL [] ls = ((runL [] ls).1, .donePart rest) := by
        rw [← h2]
      rw [List.cons_append,
        show runL [] (l :: (ls ++ ms)) = runL s (ls ++ ms) by simp [runL, hcl],
        runL_acc s (ls ++ ms), ih hls, h1]

theorem runL_append_stall {ls : List Chars} {a : Chars} {w : Chars}
    {rest : List Chars} (h : runL [] ls = (a, .stallPart w rest)) (ms : List Chars) :
    runL [] (ls ++ ms) = (a, .stallPart w (rest ++ ms)) := by
  induction ls generalizing a with
  | nil => simp [runL] at h
  | cons l ls ih =>
    cases hcl : classify l with
    | skip =>
      rw [show runL [] (l :: ls) = runL [] ls by simp [runL, hcl]] at h
      rw [List.cons_append,
        show runL [] (l :: (ls ++ ms)) = runL [] (ls ++ ms) by simp [runL, hcl]]
      exact ih h
    | done => simp [runL, hcl] at h
    | stall =>
      rw [show runL [] (l :: ls) = ([], .stallPart l ls) by simp [runL, hcl]] at h
      obtain ⟨ha, hw, hrest⟩ : [] = a ∧ l = w ∧ ls = rest := by
        refine ⟨congrArg Prod.fst h, ?_, ?_⟩
        · have := congrArg Prod.snd h
          simp at this
          exact this.1
        · have := congrArg Prod.snd h
          simp at this
          exact this.2
      subst ha; subst hw; subst hrest
      rw [List.cons_append,
        show runL [] (l :: (ls ++ ms)) = ([], .stallPart l (ls ++ ms)) by
          simp [runL, hcl]]
    | content s =>
      rw [show runL [] (l :: ls) = runL s ls by simp [runL, hcl]] at h
      rw [runL_acc s ls] at h
      have h2 : (runL [] ls).2 = .stallPart w rest := congrArg Prod.snd h
      have h1 : a = s ++ (runL [] ls).1 := (congrArg Prod.fst h).symm
      have hls : runL [] ls = ((runL [] ls).1, .stallPart w rest) := by
        rw [← h2]
      rw [List.cons_append,
        show runL [] (l :: (ls ++ ms)) = runL s (ls ++ ms) by simp [runL, hcl],
        runL_acc s (ls ++ ms), ih hls, h1]

theorem runL_skips {ls : List Chars} (h : ∀ l ∈ ls, classify l = .skip)
    (acc : Chars) : runL acc ls = (acc, .ran) := by
  induction ls with
  | nil => simp [runL]
  | cons l ls ih =>
    have hl := h l (List.mem_cons_self _ _)
    have hls : ∀ x ∈ ls, classify x = .skip := fun x hx =>
      h x (List.mem_cons_of_mem _ hx)
    simp [runL, hl, ih hls]

theorem runL_stall_facts {ls : List Chars} {acc a w : Chars} {rest : List Chars}
    (h : runL acc ls = (a, .stallPart w rest)) :
    classify w = .stall ∧ w ∈ ls ∧ ∀ x ∈ rest, x ∈ ls := by
  induction ls generalizing acc with
  | nil => simp [runL] at h
  | cons l ls ih =>
    cases hcl : classify l with
    | skip =>
      rw [show runL acc (l :: ls) = runL acc ls by simp [runL, hcl]] at h
      obtain ⟨h1, h2, h3⟩ := ih h
      exact ⟨h1, List.mem_cons_of_mem _ h2,
        fun x hx => List.mem_cons_of_mem _ (h3 x hx)⟩
    | done => simp [runL, hcl] at h
    | stall =>
      rw [show runL acc (l :: ls) = (acc, .stallPart l ls) by simp [runL, hcl]] at h
      have hsnd := congrArg Prod.snd h
      simp at hsnd
      obtain ⟨hw, hrest⟩ := hsnd
      subst hw; subst hrest
      exact ⟨hcl, List.mem_cons_self _ _, fun x hx => List.mem_cons_of_mem _ hx⟩
    | content s =>
      rw [show runL acc (l :: ls) = runL (acc ++ s) ls by simp [runL, hcl]] at h
      obtain ⟨h1, h2, h3⟩ := ih h
      exact ⟨h1, List.mem_cons_of_mem _ h2,
        fun x hx => List.mem_cons_of_mem _ (h3 x hx)⟩

theorem runL_done_mem {ls : List Chars} {acc a : Chars} {rest : List Chars}
    (h : runL acc ls = (a, .donePart rest)) : ∀ x ∈ rest, x ∈ ls := by
  induction ls generalizing acc with
  | nil => simp [runL] at h
  | cons l ls ih =>
    cases hcl : classify l with
    | skip =>
      rw [show runL acc (l :: ls) = runL acc ls by simp [runL, hcl]] at h
      exact fun x hx => List.mem_cons_of_mem _ (ih h x hx)
    | stall => simp [runL, hcl] at h
    | done =>
      rw [show runL acc (l :: ls) = (acc, .donePart ls) by simp [runL, hcl]] at h
      have hsnd := congrArg Prod.snd h
      simp at hsnd
      subst hsnd
      exact fun x hx => List.mem_cons_of_mem _ hx
    | content s =>
      rw [show runL acc (l :: ls) = runL (acc ++ s) ls by simp [runL, hcl]] at h
      exact fun x hx => List.mem_cons_of_mem _ (ih h x hx)

theorem not_data_classify_skip {l : Chars} (h : isDataLine l = false) :
    classify l = .skip := by
  unfold classify classifyCore
  unfold isDataLine at h
  by_cases h1 : (stripCR l).head? = some ':' ∨ jsTrim (stripCR l) = []
  · simp [h1]
  · simp [h1, h]

theorem noDataAfterDone_append_left {ls ms : List Chars}
    (h : noDataAfterDone (ls ++ ms) = true) : noDataAfterDone ls = true := by
  induction ls with
  | nil => rfl
  | cons l ls ih =>
    cases hcl : classify l with
    | done =>
      rw [List.cons_append,
        show noDataAfterDone (l :: (ls ++ ms))
          = (ls ++ ms).all (fun x => !(isDataLine x)) by
            simp [noDataAfterDone, hcl]] at h
      rw [show noDataAfterDone (l :: ls) = ls.all (fun x => !(isDataLine x)) by
        simp [noDataAfterDone, hcl]]
      rw [List.all_append, Bool.and_eq_true] at h
      exact h.1
    | skip =>
      rw [List.cons_append,
        show noDataAfterDone (l :: (ls ++ ms)) = noDataAfterDone (ls ++ ms) by
          simp [noDataAfterDone, hcl]] at h
      rw [show noDataAfterDone (l :: ls) = noDataAfterDone ls by
        simp [noDataAfterDone, hcl]]
      exact ih h
    | stall =>
      rw [List.cons_append,
        show noDataAfterDone (l :: (ls ++ ms)) = noDataAfterDone (ls ++ ms) by
          simp [noDataAfterDone, hcl]] at h
      rw [show noDataAfterDone (l :: ls) = noDataAfterDone ls by
        simp [noDataAfterDone, hcl]]
      exact ih h
    | content s =>
      rw [List.cons_append,
        show noDataAfterDone (l :: (ls ++ ms)) = noDataAfterDone (ls ++ ms) by
          simp [noDataAfterDone, hcl]] at h
      rw [show noDataAfterDone (l :: ls) = noDataAfterDone ls by
        simp [noDataAfterDone, hcl]]
      exact ih h

theorem runL_done_skip {ls : List Chars} {acc a : Chars} {rest : List Chars}
    (hnd : noDataAfterDone ls = true) (h : runL acc ls = (a, .donePart rest)) :
    ∀ x ∈ rest, classify x = .skip := by
  induction ls generalizing acc with
  | nil => simp [runL] at h
  | cons l ls ih =>
    cases hcl : classify l with
    | skip =>
      rw [show runL acc (l :: ls) = runL acc ls by simp [runL, hcl]] at h
      rw [show noDataAfterDone (l :: ls) = noDataAfterDone ls by
        simp [noDataAfterDone, hcl]] at hnd
      exact ih hnd h
    | stall => simp [runL, hcl] at h
    | content s =>
      rw [show runL acc (l :: ls) = runL (acc ++ s) ls by simp [runL, hcl]] at h
      rw [show noDataAfterDone (l :: ls) = noDataAfterDone ls by
        simp [noDataAfterDone, hcl]] at hnd
      exact ih hnd h
    | done =>
      rw [show runL acc (l :: ls) = (acc, .donePart ls) by simp [runL, hcl]] at h
      have hsnd := congrArg Prod.snd h
      simp at hsnd
      subst hsnd
      rw [show noDataAfterDone (l :: ls) = ls.all (fun x => !(isDataLine x)) by
        simp [noDataAfterDone, hcl]] at hnd
      intro x hx
      have := (List.all_eq_true.mp hnd) x hx
      exact not_data_classify_skip (by simpa using this)

theorem innerLoop_encode (ls : List Chars) (q acc : Chars) (fuel : Nat)
    (hls : ∀ l ∈ ls, '\n' ∉ l) (hq : '\n' ∉ q)
    (hfuel : (encodeLines ls ++ q).length ≤ fuel) :
    innerLoop fuel ⟨encodeLines ls ++ q, acc⟩ = stopState q (runL acc ls) := by
  induction ls generalizing acc fuel with
  | nil =>
    cases fuel with
    | zero => simp [innerLoop, stopState, runL, encodeLines_nil]
    | succ f =>
      simp [innerLoop, encodeLines_nil, breakAtNewline_of_not_mem hq,
        stopState, runL]
  | cons l ls ih =>
    have hl : '\n' ∉ l := hls l (List.mem_cons_self _ _)
    have hls' : ∀ x ∈ ls, '\n' ∉ x := fun x hx => hls x (List.mem_cons_of_mem _ hx)
    have hbuf : encodeLines (l :: ls) ++ q = l ++ '\n' :: (encodeLines ls ++ q) := by
      rw [encodeLines_cons]
      simp
    obtain ⟨f, rfl⟩ : ∃ f, fuel = f + 1 := by
      refine ⟨fuel - 1, ?_⟩
      rw [hbuf] at hfuel
      simp [List.length_append] at hfuel
      omega
    have hf : (encodeLines ls ++ q).length ≤ f := by
      rw [hbuf] at hfuel
      simp [List.length_append] at hfuel ⊢
      omega
    rw [hbuf]
    show innerLoop (f + 1) ⟨l ++ '\n' :: (encodeLines ls ++ q), acc⟩ = _
    rw [innerLoop]
    simp only [breakAtNewline_encode _ hl]
    cases hcl : classify l with
    | skip =>
      rw [show runL acc (l :: ls) = runL acc ls by simp [runL, hcl]]
      exact ih acc f hls' hf
    | content s =>
      rw [show runL acc (l :: ls) = runL (acc ++ s) ls by simp [runL, hcl]]
      exact ih (acc ++ s) f hls' hf
    | done =>
      rw [show runL acc (l :: ls) = (acc, .donePart ls) by simp [runL, hcl]]
      rfl
    | stall =>
      rw [show runL acc (l :: ls) = (acc, .stallPart l ls) by simp [runL, hcl]]
      rfl

theorem splitLines_no_newline (s : Chars) :
    (∀ l ∈ (splitLines s).1, '\n' ∉ l) ∧ '\n' ∉ (splitLines s).2 := by
  induction s with
  | nil => exact ⟨fun l hl => absurd hl (List.not_mem_nil l), List.not_mem_nil _⟩
  | cons c rest ih =>
    by_cases hc : c = '\n'
    · subst hc
      have hs : splitLines ('\n' :: rest)
          = ([] :: (splitLines rest).1, (splitLines rest).2) := by
        simp [splitLines]
      rw [hs]
      refine ⟨?_, ih.2⟩
      intro l hl
      rcases List.mem_cons.mp hl with h | h
      · subst h; exact List.not_mem_nil _
      · exact ih.1 l h
    · cases h1 : (splitLines rest).1 with
      | nil =>
        have hs : splitLines (c :: rest) = ([], c :: (splitLines rest).2) := by
          simp [splitLines, hc, h1]
        rw [hs]
        refine ⟨fun l hl => absurd hl (List.not_mem_nil l), ?_⟩
        intro hmem
        rcases List.mem_cons.mp hmem with h | h
        · exact hc h.symm
        · exact ih.2 h
      | cons l0 ls0 =>
        have hs : splitLines (c :: rest)
            = ((c :: l0) :: ls0, (splitLines rest).2) := by
          simp [splitLines, hc, h1]
        rw [hs]
        refine ⟨?_, ih.2⟩
        intro l hl
        rcases List.mem_cons.mp hl with h | h
        · subst h
          intro hmem
          rcases List.mem_cons.mp hmem with h | h
          · exact hc h.symm
          · exact ih.1 l0 (by rw [h1]; exact List.mem_cons_self _ _) h
        · exact ih.1 l (by rw [h1]; exact List.mem_cons_of_mem _ h)

theorem splitLines_join (s : Chars) :
    encodeLines (splitLines s).1 ++ (splitLines s).2 = s := by
  induction s with
  | nil => rfl
  | cons c rest ih =>
    by_cases hc : c = '\n'
    · subst hc
      have hs : splitLines ('\n' :: rest)
          = ([] :: (splitLines rest).1, (splitLines rest).2) := by
        simp [splitLines]
      rw [hs, encodeLines_cons]
      simpa using ih
    · cases h1 : (splitLines rest).1 with
      | nil =>
        have hs : splitLines (c :: rest) = ([], c :: (splitLines rest).2) := by
          simp [splitLines, hc, h1]
        rw [hs]
        rw [h1] at ih
        simp only [encodeLines_nil, List.nil_append] at ih ⊢
        rw [ih]
      | cons l0 ls0 =>
        have hs : splitLines (c :: rest)
            = ((c :: l0) :: ls0, (splitLines rest).2) := by
          simp [splitLines, hc, h1]
        rw [hs, encodeLines_cons]
        rw [h1, encodeLines_cons] at ih
        simp only [List.cons_append] at ih ⊢
        rw [ih]

theorem splitLines_encode_one {l : Chars} (t : Chars) (h : '\n' ∉ l) :
    splitLines (l ++ '\n' :: t) = (l :: (splitLines t).1, (splitLines t).2) := by
  induction l with
  | nil => simp [splitLines]
  | cons c rest ih =>
    have hc : c ≠ '\n' := fun e => h (e ▸ List.mem_cons_self c rest)
    have hr : '\n' ∉ rest := fun m => h (List.mem_cons_of_mem _ m)
    have := ih hr
    simp only [List.cons_append]
    simp [splitLines, hc, this]

theorem splitLines_encode_append (ls : List Chars) (q : Chars)
    (h : ∀ l ∈ ls, '\n' ∉ l) :
    splitLines (encodeLines ls ++ q) = (ls ++ (splitLines q).1, (splitLines q).2) := by
  induction ls with
  | nil => simp [encodeLines_nil]
  | cons l ls ih =>
    have hl : '\n' ∉ l := h l (List.mem_cons_self _ _)
    have hls : ∀ x ∈ ls, '\n' ∉ x := fun x hx => h x (List.mem_cons_of_mem _ hx)
    rw [encodeLines_cons, List.append_assoc, List.cons_append,
      splitLines_encode_one _ hl, ih hls]
    simp

theorem midOk_init : midOk [] ⟨[], []⟩ := rfl

theorem midOk_step {p : Chars} {st : SState} (h : midOk p st) (c : Chars)
    (hok : noDataAfterDone (splitLines (p ++ c)).1 = true) :
    midOk (p ++ c) (processChunk st c) := by
  have hlsnn : ∀ l ∈ (splitLines p).1, '\n' ∉ l := (splitLines_no_newline p).1
  have hls'nn : ∀ l ∈ (splitLines ((splitLines p).2 ++ c)).1, '\n' ∉ l :=
    (splitLines_no_newline _).1
  have hq'nn : '\n' ∉ (splitLines ((splitLines p).2 ++ c)).2 :=
    (splitLines_no_newline _).2
  have hqc : encodeLines (splitLines ((splitLines p).2 ++ c)).1 ++
      (splitLines ((splitLines p).2 ++ c)).2 = (splitLines p).2 ++ c :=
    splitLines_join _
  have hpc : p ++ c = encodeLines (splitLines p).1 ++ ((splitLines p).2 ++ c) := by
    conv_lhs => rw [← splitLines_join p]
    rw [List.append_assoc]
  have hsplit : splitLines (p ++ c) =
      ((splitLines p).1 ++ (splitLines ((splitLines p).2 ++ c)).1,
       (splitLines ((splitLines p).2 ++ c)).2) := by
    rw [hpc]
    exact splitLines_encode_append _ _ hlsnn
  rcases hrun : runL [] (splitLines p).1 with ⟨a, sk⟩
  unfold midOk at h
  rw [hrun] at h
  unfold midOk
  simp only [hsplit]
  cases sk with
  | ran =>
    -- every complete line of `p` was drained: the buffer is the partial
    -- line, and the chunk appends to it
    rw [h]
    have hproc : processChunk ⟨(splitLines p).2, a⟩ c =
        stopState (splitLines ((splitLines p).2 ++ c)).2
          (runL a (splitLines ((splitLines p).2 ++ c)).1) := by
      show innerLoop ((splitLines p).2 ++ c).length ⟨(splitLines p).2 ++ c, a⟩ = _
      conv_lhs => rw [← hqc]
      exact innerLoop_encode _ _ _ _ hls'nn hq'nn (le_refl _)
    rw [hproc]
    rcases hrun' : runL [] (splitLines ((splitLines p).2 ++ c)).1 with ⟨a2, sk2⟩
    have hra : runL a (splitLines ((splitLines p).2 ++ c)).1 = (a ++ a2, sk2) := by
      rw [runL_acc, hrun']
    rw [hra]
    cases sk2 with
    | ran =>
      have happ : runL []
          ((splitLines p).1 ++ (splitLines ((splitLines p).2 ++ c)).1)
          = (a ++ a2, .ran) := by
        rw [runL_append_ran hrun, hrun']
      rw [happ]
      simp [midSpec, stopState]
    | donePart rest2 =>
      have happ : runL []
          ((splitLines p).1 ++ (splitLines ((splitLines p).2 ++ c)).1)
          = (a ++ a2, .donePart rest2) := by
        rw [runL_append_ran hrun, hrun']
      rw [happ]
      exact ⟨rfl, rest2, List.suffix_refl _, rfl⟩
    | stallPart w rest2 =>
      have happ : runL []
          ((splitLines p).1 ++ (splitLines ((splitLines p).2 ++ c)).1)
          = (a ++ a2, .stallPart w rest2) := by
        rw [runL_append_ran hrun, hrun']
      rw [happ]
      obtain ⟨hw, hwmem, _⟩ := runL_stall_facts hrun'
      exact ⟨stripCR w, by rw [classify_stripCR]; exact hw,
        not_mem_stripCR (hls'nn w hwmem), rfl⟩
  | donePart rest =>
    obtain ⟨hacc, ds, hsuffix, hbuf⟩ := h
    have hrestls : ∀ x ∈ rest, x ∈ (splitLines p).1 := runL_done_mem hrun
    have hdsnn : ∀ x ∈ ds ++ (splitLines ((splitLines p).2 ++ c)).1, '\n' ∉ x := by
      intro x hx
      rcases List.mem_append.mp hx with hx | hx
      · exact hlsnn x (hrestls x (hsuffix.subset hx))
      · exact hls'nn x hx
    have happ : runL []
        ((splitLines p).1 ++ (splitLines ((splitLines p).2 ++ c)).1)
        = (a, .donePart (rest ++ (splitLines ((splitLines p).2 ++ c)).1)) :=
      runL_append_done hrun _
    have hokl : noDataAfterDone
        ((splitLines p).1 ++ (splitLines ((splitLines p).2 ++ c)).1) = true := by
      rw [hsplit] at hok
      exact hok
    have hskip : ∀ x ∈ ds ++ (splitLines ((splitLines p).2 ++ c)).1,
        classify x = .skip := by
      intro x hx
      refine runL_done_skip hokl happ x ?_
      rcases List.mem_append.mp hx with hx | hx
      · exact List.mem_append.mpr (Or.inl (hsuffix.subset hx))
      · exact List.mem_append.mpr (Or.inr hx)
    have hbc : st.buffer ++ c =
        encodeLines (ds ++ (splitLines ((splitLines p).2 ++ c)).1) ++
          (splitLines ((splitLines p).2 ++ c)).2 := by
      rw [hbuf, List.append_assoc, encodeLines_append, List.append_assoc, hqc]
    have hproc : processChunk st c =
        stopState (splitLines ((splitLines p).2 ++ c)).2
          (runL st.acc (ds ++ (splitLines ((splitLines p).2 ++ c)).1)) := by
      show innerLoop (st.buffer ++ c).length ⟨st.buffer ++ c, st.acc⟩ = _
      conv_lhs => rw [hbc]
      exact innerLoop_encode _ _ _ _ hdsnn hq'nn (le_refl _)
    rw [happ, hproc, runL_skips hskip, hacc]
    exact ⟨rfl, [], List.nil_suffix, rfl⟩
  | stallPart w rest =>
    obtain ⟨l', hcl', hnn', hst⟩ := h
    have hrestls : ∀ x ∈ rest, x ∈ (splitLines p).1 := (runL_stall_facts hrun).2.2
    have hnl : ∀ x ∈ l' :: (rest ++ (splitLines ((splitLines p).2 ++ c)).1),
        '\n' ∉ x := by
      intro x hx
      rcases List.mem_cons.mp hx with hx | hx
      · exact hx ▸ hnn'
      · rcases List.mem_append.mp hx with hx | hx
        · exact hlsnn x (hrestls x hx)
        · exact hls'nn x hx
    have happ : runL []
        ((splitLines p).1 ++ (splitLines ((splitLines p).2 ++ c)).1)
        = (a, .stallPart w (rest ++ (splitLines ((splitLines p).2 ++ c)).1)) :=
      runL_append_stall hrun _
    rw [hst]
    have hbc : (l' ++ '\n' :: (encodeLines rest ++ (splitLines p).2)) ++ c =
        encodeLines (l' :: (rest ++ (splitLines ((splitLines p).2 ++ c)).1)) ++
          (splitLines ((splitLines p).2 ++ c)).2 := by
      rw [encodeLines_cons, encodeLines_append]
      simp only [List.append_assoc, List.cons_append, hqc]
    have hproc : processChunk ⟨l' ++ '\n' :: (encodeLines rest ++ (splitLines p).2), a⟩ c =
        stopState (splitLines ((splitLines p).2 ++ c)).2
          (runL a (l' :: (rest ++ (splitLines ((splitLines p).2 ++ c)).1))) := by
      show innerLoop _ ⟨(l' ++ '\n' :: (encodeLines rest ++ (splitLines p).2)) ++ c, a⟩ = _
      conv_lhs => rw [hbc]
      exact innerLoop_encode _ _ _ _ hnl hq'nn (le_refl _)
    have hstall : runL a (l' :: (rest ++ (splitLines ((splitLines p).2 ++ c)).1))
        = (a, .stallPart l' (rest ++ (splitLines ((splitLines p).2 ++ c)).1)) := by
      simp only [runL, hcl']
    rw [happ, hproc, hstall]
    exact ⟨stripCR l', by rw [classify_stripCR]; exact hcl',
      not_mem_stripCR hnn', rfl⟩

theorem noDataAfterDone_of_append {x y : Chars}
    (h : noDataAfterDone (splitLines (x ++ y)).1 = true) :
    noDataAfterDone (splitLines x).1 = true := by
  have hx : x ++ y = encodeLines (splitLines x).1 ++ ((splitLines x).2 ++ y) := by
    conv_lhs => rw [← splitLines_join x]
    rw [List.append_assoc]
  rw [hx, splitLines_encode_append _ _ (splitLines_no_newline x).1] at h
  exact noDataAfterDone_append_left h

theorem midOk_run (chunks : List Chars) {p : Chars} {st : SState} (h : midOk p st)
    (hok : noDataAfterDone (splitLines (p ++ chunks.flatten)).1 = true) :
    midOk (p ++ chunks.flatten) (processChunks st chunks) := by
  induction chunks generalizing p st with
  | nil => simpa [processChunks] using h
  | cons c cs ih =>
    have heq : p ++ (c :: cs).flatten = (p ++ c) ++ cs.flatten := by
      simp
    rw [heq] at hok ⊢
    have hok1 : noDataAfterDone (splitLines (p ++ c)).1 = true :=
      noDataAfterDone_of_append hok
    show midOk _ (processChunks (processChunk st c) cs)
    exact ih (midOk_step h c hok1) hok

theorem stopState_acc (q : Chars) (r : Chars × StopKind) :
    (stopState q r).acc = r.1 := by
  rcases r with ⟨a, sk⟩
  cases sk <;> rfl

theorem runStream_eq (s : Chars) (chunks : List Chars) (hj : chunks.flatten = s)
    (hnd : noDataAfterDone (splitLines s).1 = true) :
    runStream chunks = (runL [] (splitLines s).1).1 := by
  subst hj
  have h0 := midOk_run chunks midOk_init
    (by simpa using hnd)
  rw [List.nil_append] at h0
  unfold midOk at h0
  unfold runStream
  rcases hrun : runL [] (splitLines chunks.flatten).1 with ⟨a, sk⟩
  rw [hrun] at h0
  cases sk with
  | ran => rw [h0]
  | donePart rest => exact h0.1
  | stallPart w rest =>
    obtain ⟨l', _, _, hst⟩ := h0
    rw [hst]

theorem dataLine_head {l : Chars} (h : isDataLine l = true) :
    ∃ t, stripCR l = 'd' :: t := by
  unfold isDataLine at h
  obtain ⟨t, ht⟩ := List.isPrefixOf_iff_prefix.mp h
  exact ⟨"ata: ".data ++ t, by rw [← ht]; rfl⟩

theorem dataLine_not_comment {l : Chars} (h : isDataLine l = true) :
    ¬ ((stripCR l).head? = some ':') := by
  obtain ⟨t, ht⟩ := dataLine_head h
  rw [ht]
  simp

theorem dataLine_not_blank {l : Chars} (h : isDataLine l = true) :
    ¬ (jsTrim (stripCR l) = []) := by
  obtain ⟨t, ht⟩ := dataLine_head h
  rw [ht]
  intro hcon
  unfold jsTrim at hcon
  have hd : isJsSpace 'd' = false := by decide
  rw [List.dropWhile_cons, hd] at hcon
  simp only [Bool.false_eq_true, if_false] at hcon
  have hnil : ('d' :: t).reverse.dropWhile isJsSpace = [] := by
    have := congrArg List.reverse hcon
    simpa using this
  have hall := List.dropWhile_eq_nil_iff.mp hnil
  have := hall 'd' (by simp)
  simp [hd] at this

/-- For a well-formed data line the loop's per-line action matches the
claim's description of the line. -/
theorem classify_wf_data {l : Chars} (hd : isDataLine l = true)
    (hg : goodPayload (dataPayload l) = true) :
    (dataPayload l = "[DONE]".data ∧ classify l = .done) ∨
    (dataPayload l ≠ "[DONE]".data ∧
      ((∃ s, contentField (dataPayload l) = some s ∧
          (classify l = .content s ∨ (s = [] ∧ classify l = .skip))) ∨
        (contentField (dataPayload l) = none ∧ classify l = .skip))) := by
  have hcl : classify l = classifyCore (stripCR l) := rfl
  have h1 : ¬ ((stripCR l).head? = some ':' ∨ jsTrim (stripCR l) = []) := by
    rintro (h | h)
    · exact dataLine_not_comment hd h
    · exact dataLine_not_blank hd h
  have h2 : "data: ".data.isPrefixOf (stripCR l) = true := hd
  have hpay : jsTrim ((stripCR l).drop 6) = dataPayload l := rfl
  by_cases hdone : dataPayload l = "[DONE]".data
  · left
    refine ⟨hdone, ?_⟩
    rw [hcl]
    unfold classifyCore
    rw [if_neg h1, if_neg (by rw [h2]; simp), hpay, if_pos hdone]
  · right
    refine ⟨hdone, ?_⟩
    unfold goodPayload at hg
    rw [Bool.or_eq_true] at hg
    rcases hg with hg | hg
    · exact absurd (by simpa using hg) hdone
    · cases hparse : jsonParse (dataPayload l) with
      | none => rw [hparse] at hg; simp at hg
      | some j =>
        rw [hparse] at hg
        cases hacc : getDeltaContent j with
        | thrown => simp [hacc] at hg
        | undef =>
          right
          constructor
          · simp [contentField, hparse, hacc]
          · rw [hcl]
            unfold classifyCore
            rw [if_neg h1, if_neg (by rw [h2]; simp), hpay, if_neg hdone]
            simp [hparse, hacc]
        | val v =>
          cases v with
          | str s =>
            left
            refine ⟨s, ?_, ?_⟩
            · simp [contentField, hparse, hacc]
            · rw [hcl]
              unfold classifyCore
              rw [if_neg h1, if_neg (by rw [h2]; simp), hpay, if_neg hdone]
              by_cases hs : s = []
              · right
                subst hs
                simp [hparse, hacc, jsTruthy]
              · left
                simp [hparse, hacc, jsTruthy, jsToString, hs, List.isEmpty_iff]
          | null => simp [hacc] at hg
          | bool b => simp [hacc] at hg
          | num neg ip fp ex => simp [hacc] at hg
          | arr xs => simp [hacc] at hg
          | obj fs => simp [hacc] at hg

theorem runL_spec {ls : List Chars} (h : ∀ l ∈ ls, wfLine l = true) (acc : Chars) :
    (runL acc ls).1 = acc ++ specConcat ls := by
  induction ls generalizing acc with
  | nil => simp [runL, specConcat]
  | cons l ls ih =>
    have hl := h l (List.mem_cons_self _ _)
    have hls : ∀ x ∈ ls, wfLine x = true := fun x hx =>
      h x (List.mem_cons_of_mem _ hx)
    by_cases hd : isDataLine l = true
    · have hg : goodPayload (dataPayload l) = true := by
        unfold wfLine at hl
        rw [Bool.and_eq_true, Bool.or_eq_true, Bool.or_eq_true] at hl
        rcases hl.2 with (hc | hb) | hdg
        · exact absurd hc (by simpa [isCommentLine] using dataLine_not_comment hd)
        · exact absurd hb (by simpa [isBlankLine] using dataLine_not_blank hd)
        · rw [Bool.and_eq_true] at hdg
          exact hdg.2
      rcases classify_wf_data hd hg with ⟨hdone, hcl⟩ | ⟨hdone, hcase⟩
      · rw [show runL acc (l :: ls) = (acc, .donePart ls) by simp [runL, hcl]]
        rw [show specConcat (l :: ls) = [] by simp [specConcat, hd, hdone]]
        simp
      · rcases hcase with ⟨s, hcf, hcl | ⟨hsnil, hcl⟩⟩ | ⟨hcf, hcl⟩
        · rw [show runL acc (l :: ls) = runL (acc ++ s) ls by simp [runL, hcl]]
          rw [show specConcat (l :: ls) = s ++ specConcat ls by
            simp [specConcat, hd, hdone, hcf]]
          rw [ih hls (acc ++ s), List.append_assoc]
        · subst hsnil
          rw [show runL acc (l :: ls) = runL acc ls by simp [runL, hcl]]
          rw [show specConcat (l :: ls) = [] ++ specConcat ls by
            simp [specConcat, hd, hdone, hcf]]
          rw [ih hls acc]
          simp
        · rw [show runL acc (l :: ls) = runL acc ls by simp [runL, hcl]]
          rw [show specConcat (l :: ls) = specConcat ls by
            simp [specConcat, hd, hdone, hcf]]
          exact ih hls acc
    · have hcl : classify l = .skip :=
        not_data_classify_skip (Bool.eq_false_iff.mpr hd)
      rw [show runL acc (l :: ls) = runL acc ls by simp [runL, hcl]]
      rw [show specConcat (l :: ls) = specConcat ls by
        simp [specConcat, Bool.eq_false_iff.mpr hd]]
      exact ih hls acc

theorem wfLine_no_newline {l : Chars} (h : wfLine l = true) : '\n' ∉ l := by
  unfold wfLine at h
  rw [Bool.and_eq_true] at h
  have := h.1
  simpa using this

/-- C1 (amended): for every well-formed server-sent-events stream —
each line a comment line, a blank line, or a `data: ` line whose payload
is `[DONE]` or valid JSON that is not the literal `null` and whose
`choices[0].delta.content` field, when present, is a string — the
streaming loop of `sendMessage`, fed the stream, accumulates an
`assistantMessage` equal to the concatenation, in stream order, of the
`choices[0].delta.content` fields of the data lines preceding the first
`[DONE]`, skipping data lines that carry no such field.  (The original
claim, which admits the payload `null`, fails: member access on a parsed
`null` throws, the line is pushed back, and the loop stalls.) -/
theorem sendMessage_stream_accumulation (lines : List Chars)
    (h : ∀ l ∈ lines, wfLine l = true) :
    runStream [encodeLines lines] = specConcat lines := by
  have hnn : ∀ l ∈ lines, '\n' ∉ l := fun l hl => wfLine_no_newline (h l hl)
  have hkey : runStream [encodeLines lines]
      = (innerLoop (encodeLines lines).length ⟨encodeLines lines, []⟩).acc := rfl
  rw [hkey]
  have henc : encodeLines lines = encodeLines lines ++ [] := by simp
  conv_lhs => rw [henc]
  rw [innerLoop_encode lines [] [] _ hnn (List.not_mem_nil _) (le_refl _),
    stopState_acc, runL_spec h []]
  simp

/-- C1, counterexample to the claim as stated: the stream whose lines
are `data: null` and a content-carrying data line is well-formed in the
claim's sense (`null` is valid JSON), yet the loop accumulates nothing —
`JSON.parse("null")` succeeds and the subsequent member access throws,
so the catch branch pushes the line back and the loop never passes it —
while the claim's description of the result is "A". -/
theorem sendMessage_stream_accumulation_counterexample :
    (∀ l ∈ [lineNull, lineContentA], claimWfLine l = true) ∧
    runStream [encodeLines [lineNull, lineContentA]]
      ≠ specConcat [lineNull, lineContentA] :=
  ⟨by decide, by decide⟩

/-- C1, witness: the amended theorem applied to the concrete two-line
stream `content "A"` then `[DONE]`. -/
theorem sendMessage_stream_accumulation_witness :
    (∀ l ∈ [lineContentA, lineDone], wfLine l = true) ∧
    runStream [encodeLines [lineContentA, lineDone]]
      = specConcat [lineContentA, lineDone] :=
  ⟨by decide, sendMessage_stream_accumulation _ (by decide)⟩

/-- C4 (amended): the streaming reassembly loop is invariant under chunk
boundaries for every stream in which no `data: ` line follows the first
`[DONE]` data line (in particular parse-failure push-back never breaks
the invariance): any two chunk deliveries of the same byte stream
accumulate the same final `assistantMessage`.  (The original claim,
quantified over all streams, fails: the `[DONE]` `break` leaves the rest
of the buffer unprocessed, and whether later data lines are ever
processed depends on whether another chunk arrives.) -/
theorem sendMessage_stream_chunk_invariance (s : Chars)
    (chunks₁ chunks₂ : List Chars)
    (h1 : chunks₁.flatten = s) (h2 : chunks₂.flatten = s)
    (hnd : noDataAfterDone (splitLines s).1 = true) :
    runStream chunks₁ = runStream chunks₂ := by
  rw [runStream_eq s chunks₁ h1 hnd, runStream_eq s chunks₂ h2 hnd]

/-- C4, counterexample to the claim as stated: the stream
`data: [DONE]` then a content-carrying data line, delivered whole,
accumulates nothing; delivered line by line, the second chunk resumes
the drained buffer past the `[DONE]` break and accumulates "B". -/
theorem sendMessage_stream_chunk_invariance_counterexample :
    ([lineDone ++ ['\n'], lineContentB ++ ['\n']] : List Chars).flatten
        = ([encodeLines [lineDone, lineContentB]] : List Chars).flatten ∧
    runStream [encodeLines [lineDone, lineContentB]]
        ≠ runStream [lineDone ++ ['\n'], lineContentB ++ ['\n']] :=
  ⟨by decide, by decide⟩

/-- C4, witness: the amended theorem applied to a concrete stream
delivered whole and split at a line boundary. -/
theorem sendMessage_stream_chunk_invariance_witness :
    (([encodeLines [lineContentA, lineDone]] : List Chars).flatten
        = encodeLines [lineContentA, lineDone] ∧
      ([lineContentA ++ ['\n'], lineDone ++ ['\n']] : List Chars).flatten
        = encodeLines [lineContentA, lineDone] ∧
      noDataAfterDone (splitLines (encodeLines [lineContentA, lineDone])).1
        = true) ∧
    runStream [encodeLines [lineContentA, lineDone]]
        = runStream [lineContentA ++ ['\n'], lineDone ++ ['\n']] :=
  ⟨⟨by decide, by decide, by decide⟩,
    sendMessage_stream_chunk_invariance (encodeLines [lineContentA, lineDone])
      [encodeLines [lineContentA, lineDone]]
      [lineContentA ++ ['\n'], lineDone ++ ['\n']]
      (by decide) (by decide) (by decide)⟩

/- ===== C2: the markdown segmentation round trip ===== -/

theorem serializeSegs_append (a b : List Seg) :
    serializeSegs (a ++ b) = serializeSegs a ++ serializeSegs b := by
  simp [serializeSegs]

theorem emitText_serialize (x : Chars) : serializeSegs (emitText x) = x := by
  unfold emitText
  split
  · rename_i h
    rw [h]
    rfl
  · simp [serializeSegs, serializeSeg]

theorem splitAtTicks_eq {x a b : Chars} (h : splitAtTicks x = some (a, b)) :
    x = a ++ "```".data ++ b := by
  induction x generalizing a b with
  | nil => simp [splitAtTicks] at h
  | cons c rest ih =>
    unfold splitAtTicks at h
    split at h
    · rename_i hp
      obtain ⟨t, ht⟩ := List.isPrefixOf_iff_prefix.mp hp
      obtain ⟨ha, hb⟩ : [] = a ∧ (c :: rest).drop 3 = b := by
        have h1 := Option.some.inj h
        exact ⟨congrArg Prod.fst h1, congrArg Prod.snd h1⟩
      have hdrop : (c :: rest).drop 3 = t := by
        rw [← ht]
        exact List.drop_left' (by decide)
      rw [← ha, ← hb, hdrop, ← ht]
      simp
    · rename_i hp
      split at h
      · exact absurd h (by simp)
      · rename_i a' b' heq
        have h1 := Option.some.inj h
        have ha : c :: a' = a := congrArg Prod.fst h1
        have hb : b' = b := congrArg Prod.snd h1
        rw [← ha, ← hb]
        have := ih heq
        rw [List.cons_append, List.cons_append, ← this]

/-- A code-block match reconstructs, re-serialized, exactly the matched
substring: the match is the three backticks, `match[1]`, the newline,
`match[2]` and the closing backticks. -/
theorem tryCode_eq {s : Chars} {lang : Option Chars} {body after : Chars}
    (h : tryCode s = some (lang, body, after)) :
    serializeSeg (.code lang body) ++ after = s := by
  unfold tryCode at h
  split at h
  · rename_i hp
    obtain ⟨t, ht⟩ := List.isPrefixOf_iff_prefix.mp hp
    have hdrop : s.drop 3 = t := by
      rw [← ht]
      exact List.drop_left' (by decide)
    rw [hdrop] at h
    split at h
    · rename_i r2 hdw
      split at h
      · rename_i body' after' hticks
        have h1 := Option.some.inj h
        have hlang : (if t.takeWhile isWordChar = [] then none
            else some (t.takeWhile isWordChar)) = lang := congrArg Prod.fst h1
        have hbody : body' = body := congrArg (fun p => p.2.1) h1
        have hafter : after' = after := congrArg (fun p => p.2.2) h1
        subst hbody; subst hafter
        have ht2 : t = t.takeWhile isWordChar ++ ('\n' :: r2) := by
          conv_lhs => rw [← List.takeWhile_append_dropWhile (p := isWordChar) (l := t)]
          rw [hdw]
        rw [splitAtTicks_eq hticks] at ht2
        rw [← ht, ht2, ← hlang]
        by_cases hl : t.takeWhile isWordChar = []
        · rw [hl]
          simp [serializeSeg]
        · rw [if_neg hl]
          simp [serializeSeg]
      · exact absurd h (by simp)
    · exact absurd h (by simp)
  · exact absurd h (by simp)

/-- An image match reconstructs, re-serialized, exactly the matched
substring. -/
theorem tryImg_eq {s : Chars} {alt src after : Chars}
    (h : tryImg s = some (alt, src, after)) :
    serializeSeg (.img alt src) ++ after = s := by
  unfold tryImg at h
  split at h
  · rename_i t
    split at h
    · rename_i u hdw
      split at h
      · rename_i hsrc
        exact absurd h (by simp)
      · split at h
        · rename_i after' hdw2
          have h1 := Option.some.inj h
          have halt : t.takeWhile (· ≠ ']') = alt := congrArg Prod.fst h1
          have hsrc : u.takeWhile (· ≠ ')') = src := congrArg (fun p => p.2.1) h1
          have hafter : after' = after := congrArg (fun p => p.2.2) h1
          have ht : t = alt ++ (']' :: '(' :: u) := by
            conv_lhs => rw [← List.takeWhile_append_dropWhile (p := (· ≠ ']')) (l := t)]
            rw [hdw, halt]
          have hu : u = src ++ (')' :: after) := by
            conv_lhs => rw [← List.takeWhile_append_dropWhile (p := (· ≠ ')')) (l := u)]
            rw [hdw2, hsrc, hafter]
          rw [ht, hu]
          simp [serializeSeg]
        · exact absurd h (by simp)
    · exact absurd h (by simp)
  · exact absurd h (by simp)

/-- Re-serializing the scanned segments, with the pending text gap in
front, reproduces the input. -/
theorem scanSegs_serialize (fuel : Nat) (acc s : Chars) :
    serializeSegs (scanSegs fuel acc s) = acc ++ s := by
  induction fuel generalizing acc s with
  | zero => simp [scanSegs, emitText_serialize]
  | succ fuel ih =>
    cases s with
    | nil => simp [scanSegs, emitText_serialize]
    | cons c rest =>
      cases htc : tryCode (c :: rest) with
      | some res =>
        rcases res with ⟨lang, body, after⟩
        rw [show scanSegs (fuel + 1) acc (c :: rest)
            = emitText acc ++ .code lang body :: scanSegs fuel [] after by
          simp [scanSegs, htc]]
        rw [serializeSegs_append, emitText_serialize,
          show serializeSegs (.code lang body :: scanSegs fuel [] after)
            = serializeSeg (.code lang body) ++ serializeSegs (scanSegs fuel [] after)
            from by simp [serializeSegs],
          ih [] after, List.nil_append, tryCode_eq htc]
      | none =>
        cases hti : tryImg (c :: rest) with
        | some res =>
          rcases res with ⟨alt, src, after⟩
          rw [show scanSegs (fuel + 1) acc (c :: rest)
              = emitText acc ++ .img alt src :: scanSegs fuel [] after by
            simp [scanSegs, htc, hti]]
          rw [serializeSegs_append, emitText_serialize,
            show serializeSegs (.img alt src :: scanSegs fuel [] after)
              = serializeSeg (.img alt src) ++ serializeSegs (scanSegs fuel [] after)
              from by simp [serializeSegs],
            ih [] after, List.nil_append, tryImg_eq hti]
        | none =>
          rw [show scanSegs (fuel + 1) acc (c :: rest)
              = scanSegs fuel (acc ++ [c]) rest by simp [scanSegs, htc, hti]]
          rw [ih (acc ++ [c]) rest]
          simp

/-- C2: for every assistant message content string, the segment
sequence produced by `renderMessageContent` — plain-text spans, code
blocks (with `match[1]` as the optional language tag) and images —
re-serialized in order exactly reproduces the original string: text
verbatim, a code segment as three backticks, the language tag when
present, a newline, the body and closing backticks, and an image
segment as the markdown image syntax. -/
theorem renderMessageContent_roundtrip (content : Chars) :
    serializeSegs (renderMessageContent content) = content := by
  have := scanSegs_serialize content.length [] content
  simpa [renderMessageContent] using this

/- ===== C3: row-level security and ownership ===== -/

theorem ownsConversation_spec {db : DB} {uid : Option Nat} {cid : Nat}
    (h : ownsConversation db uid cid = true) :
    ∃ c ∈ db.conversations, c.id = cid ∧ uid = some c.user_id := by
  unfold ownsConversation at h
  rw [List.any_eq_true] at h
  obtain ⟨c, hc, hp⟩ := h
  rw [Bool.and_eq_true] at hp
  exact ⟨c, hc, of_decide_eq_true hp.1, of_decide_eq_true hp.2⟩

theorem mem_messageOwners {db : DB} {m : MessageRow} {c : ConversationRow}
    (hc : c ∈ db.conversations) (hid : c.id = m.conversation_id) :
    c.user_id ∈ messageOwners db m := by
  unfold messageOwners
  exact List.mem_map.mpr ⟨c, List.mem_filter.mpr ⟨hc, by simp [hid]⟩, rfl⟩

theorem mem_storageOwners {db : DB} {name : Chars} {c : ConversationRow}
    {m : MessageRow} (hc : c ∈ db.conversations) (hm : m ∈ db.messages)
    (hf : m.file_url = some name) (hcid : m.conversation_id = c.id) :
    c.user_id ∈ storageOwners db name := by
  unfold storageOwners
  refine List.mem_map.mpr ⟨c, List.mem_filter.mpr ⟨hc, ?_⟩, rfl⟩
  rw [List.any_eq_true]
  exact ⟨m, hm, by simp [hf, hcid]⟩

theorem messagePolicy_gated (db : DB)
    (p : Option Nat → MessageRow → Bool)
    (hp : ∀ uid m, p uid m = ownsConversation db uid m.conversation_id) :
    OwnershipGated (messageOwners db) p := by
  intro uid m h
  rw [hp] at h
  obtain ⟨c, hc, hid, huid⟩ := ownsConversation_spec h
  exact ⟨c.user_id, mem_messageOwners hc hid, huid⟩

theorem storagePolicy_gated (db : DB)
    (p : Option Nat → StorageObjectRow → Bool)
    (hp : ∀ uid o, p uid o =
      (o.bucket_id = chatFilesBucket &&
        db.messages.any (fun m =>
          m.file_url = some o.name && ownsConversation db uid m.conversation_id))) :
    OwnershipGated (fun o => storageOwners db o.name) p := by
  intro uid o h
  rw [hp, Bool.and_eq_true, List.any_eq_true] at h
  obtain ⟨_, m, hm, hmp⟩ := h
  rw [Bool.and_eq_true] at hmp
  obtain ⟨c, hc, hid, huid⟩ := ownsConversation_spec hmp.2
  exact ⟨c.user_id,
    mem_storageOwners hc hm (of_decide_eq_true hmp.1) hid.symm, huid⟩

/-- C3, counterexample: the storage INSERT policy "Users can upload
files to their conversations" checks only `bucket_id = 'chat-files' AND
auth.uid() IS NOT NULL`; it admits any authenticated user for an object
that no conversation of theirs (indeed no row at all) owns, so it does
not gate access by comparing `auth.uid()` to a row-ownership column of
the governed row. -/
theorem rls_policies_ownership_counterexample :
    ¬ OwnershipGated
      (fun o : StorageObjectRow => storageOwners ⟨[], []⟩ o.name)
      policyStorageInsert := by
  intro h
  obtain ⟨o, ho, _⟩ := h (some 7) ⟨chatFilesBucket, []⟩ (by decide)
  simp [storageOwners] at ho

/-- C3 (amended): every row-level security policy in the schema other
than the `chat-files` INSERT policy gates access by a predicate
comparing `auth.uid()` to a row-ownership column of the governed row —
directly (`profiles`, and the spec-modelled `conversations` policy) or
via the owning conversation's `user_id` (`messages` policies and the
storage SELECT/DELETE policies); the INSERT policy on storage objects
instead only requires the fixed bucket and a non-null authenticated
identity. -/
theorem rls_policies_ownership (db : DB) :
    OwnershipGated profileOwners policyProfilesSelect ∧
    OwnershipGated profileOwners policyProfilesUpdate ∧
    OwnershipGated profileOwners policyProfilesInsert ∧
    OwnershipGated conversationOwners policyConversationsAll ∧
    OwnershipGated (messageOwners db) (policyMessagesSelect db) ∧
    OwnershipGated (messageOwners db) (policyMessagesInsert db) ∧
    OwnershipGated (messageOwners db) (policyMessagesUpdate db) ∧
    OwnershipGated (messageOwners db) (policyMessagesDelete db) ∧
    OwnershipGated (fun o => storageOwners db o.name) (policyStorageSelect db) ∧
    OwnershipGated (fun o => storageOwners db o.name) (policyStorageDelete db) ∧
    (∀ uid o, policyStorageInsert uid o = true ↔
      (o.bucket_id = chatFilesBucket ∧ uid ≠ none)) := by
  refine ⟨?_, ?_, ?_, ?_, ?_, ?_, ?_, ?_, ?_, ?_, ?_⟩
  · intro uid row h
    exact ⟨row.id, List.mem_singleton.mpr rfl, of_decide_eq_true h⟩
  · intro uid row h
    exact ⟨row.id, List.mem_singleton.mpr rfl, of_decide_eq_true h⟩
  · intro uid row h
    exact ⟨row.id, List.mem_singleton.mpr rfl, of_decide_eq_true h⟩
  · intro uid c h
    exact ⟨c.user_id, List.mem_singleton.mpr rfl, of_decide_eq_true h⟩
  · exact messagePolicy_gated db _ (fun _ _ => rfl)
  · exact messagePolicy_gated db _ (fun _ _ => rfl)
  · exact messagePolicy_gated db _ (fun _ _ => rfl)
  · exact messagePolicy_gated db _ (fun _ _ => rfl)
  · exact storagePolicy_gated db _ (fun _ _ => rfl)
  · exact storagePolicy_gated db _ (fun _ _ => rfl)
  · intro uid o
    unfold policyStorageInsert
    rw [Bool.and_eq_true]
    constructor
    · rintro ⟨h1, h2⟩
      exact ⟨of_decide_eq_true h1, Option.isSome_iff_ne_none.mp h2⟩
    · rintro ⟨h1, h2⟩
      exact ⟨decide_eq_true h1, Option.isSome_iff_ne_none.mpr h2⟩

/-- C3, witness: the amended theorem at a one-conversation database,
applied to the profile SELECT policy at a concrete uid and row. -/
theorem rls_policies_ownership_witness :
    policyProfilesSelect (some 3) ⟨3⟩ = true ∧
    ∃ o ∈ profileOwners ⟨3⟩, (some 3 : Option Nat) = some o :=
  ⟨by decide,
    (rls_policies_ownership ⟨[⟨1, 42⟩], [⟨5, 1, some "f".data⟩]⟩).1
      (some 3) ⟨3⟩ (by decide)⟩

/- ===== C5, C6, C9: the `sendMessage` / `regenerateResponse` traces ===== -/

theorem noRetry_of_no_fetch {msg : Chars} {tr : List ChatAction}
    (h : ChatAction.fetchChat ∉ tr) : NoRetryTrace msg tr := by
  refine ⟨?_, fun hm => absurd hm h⟩
  unfold fetchCount
  rw [List.count_eq_zero.mpr h]
  omega

theorem noRetry_cons {msg : Chars} {tr : List ChatAction} (a : ChatAction)
    (ha : a ≠ .fetchChat) (h : NoRetryTrace msg tr) :
    NoRetryTrace msg (a :: tr) := by
  obtain ⟨h1, h2⟩ := h
  constructor
  · unfold fetchCount at h1 ⊢
    rw [List.count_cons]
    simp only [beq_iff_eq]
    rw [if_neg (fun hc => ha hc)]
    omega
  · intro hm
    rcases List.mem_cons.mp hm with hc | hc
    · exact absurd hc.symm ha
    · obtain ⟨pre, hpre, hnp⟩ := h2 hc
      refine ⟨a :: pre, by rw [hpre, List.cons_append], ?_⟩
      intro hmem
      rcases List.mem_cons.mp hmem with hc2 | hc2
      · exact ha hc2.symm
      · exact hnp hc2

theorem fetch_not_mem_smStream (env : ChatEnv) :
    ChatAction.fetchChat ∉ smStream env := by
  unfold smStream
  split <;> simp

theorem noRetry_smFetchPhase (env : ChatEnv) (h : env.respOk = false) :
    NoRetryTrace (chatErrMsg env) (smFetchPhase env) := by
  unfold smFetchPhase
  rw [if_pos h]
  constructor
  · unfold fetchCount
    simp [List.count_cons]
  · intro _
    exact ⟨[], rfl, List.not_mem_nil _⟩

theorem noRetry_smInsertPhase (st : ChatState) (env : ChatEnv)
    (h : env.respOk = false) :
    NoRetryTrace (chatErrMsg env) (smInsertPhase st env) := by
  unfold smInsertPhase
  refine noRetry_cons _ (fun hc => ChatAction.noConfusion hc) ?_
  split
  · exact noRetry_of_no_fetch (by simp)
  · exact noRetry_smFetchPhase env h

theorem noRetry_smUploadPhase (st : ChatState) (env : ChatEnv)
    (h : env.respOk = false) :
    NoRetryTrace (chatErrMsg env) (smUploadPhase st env) := by
  unfold smUploadPhase
  split
  · split
    · exact noRetry_cons _ (fun hc => ChatAction.noConfusion hc)
        (noRetry_smInsertPhase st env h)
    · exact noRetry_of_no_fetch (by simp)
  · exact noRetry_smInsertPhase st env h

theorem noRetry_smConvPhase (st : ChatState) (env : ChatEnv)
    (h : env.respOk = false) :
    NoRetryTrace (chatErrMsg env) (smConvPhase st env) := by
  unfold smConvPhase
  split
  · exact noRetry_smUploadPhase st env h
  · refine noRetry_cons _ (fun hc => ChatAction.noConfusion hc) ?_
    split
    · exact noRetry_of_no_fetch (by simp)
    · exact noRetry_smUploadPhase st env h

theorem fetchCount_smFetchPhase (env : ChatEnv) :
    fetchCount (smFetchPhase env) ≤ 1 := by
  unfold smFetchPhase fetchCount
  rw [List.count_cons]
  have h0 : ∀ tr : List ChatAction, ChatAction.fetchChat ∉ tr →
      tr.count ChatAction.fetchChat = 0 := fun tr h => List.count_eq_zero.mpr h
  split
  · rw [h0 _ (by simp)]
    simp
  · rw [h0 _ (fetch_not_mem_smStream env)]
    simp

theorem fetchCount_cons_le {tr : List ChatAction} (a : ChatAction)
    (ha : a ≠ .fetchChat) (h : fetchCount tr ≤ 1) : fetchCount (a :: tr) ≤ 1 := by
  unfold fetchCount at h ⊢
  rw [List.count_cons]
  simp only [beq_iff_eq]
  rw [if_neg (fun hc => ha hc)]
  omega

theorem fetchCount_sendMessage (st : ChatState) (env : ChatEnv) :
    fetchCount (sendMessageTrace st env) ≤ 1 := by
  have hzero : ∀ tr : List ChatAction, ChatAction.fetchChat ∉ tr →
      fetchCount tr ≤ 1 := fun tr h => by
    unfold fetchCount
    rw [List.count_eq_zero.mpr h]
    omega
  unfold sendMessageTrace
  split
  · exact hzero _ (by simp)
  · split
    · exact hzero _ (by simp)
    · split
      · exact hzero _ (by simp)
      · unfold smConvPhase
        have hupl : fetchCount (smUploadPhase st env) ≤ 1 := by
          unfold smUploadPhase
          have hins : fetchCount (smInsertPhase st env) ≤ 1 := by
            unfold smInsertPhase
            refine fetchCount_cons_le _ (fun hc => ChatAction.noConfusion hc) ?_
            split
            · exact hzero _ (by simp)
            · exact fetchCount_smFetchPhase env
          split
          · split
            · exact fetchCount_cons_le _ (fun hc => ChatAction.noConfusion hc) hins
            · exact hzero _ (by simp)
          · exact hins
        split
        · exact hupl
        · refine fetchCount_cons_le _ (fun hc => ChatAction.noConfusion hc) ?_
          split
          · exact hzero _ (by simp)
          · exact hupl

/-- C5: `sendMessage` issues at most one fetch to the chat endpoint per
invocation, and when the endpoint responds with a non-OK status it
surfaces the error message of the response body — or "Failed to get
response" when the `error` field is absent or empty — as a destructive
toast that ends the trace: no retry, no further write, no recovery
action. -/
theorem sendMessage_error_no_retry (st : ChatState) (env : ChatEnv) :
    fetchCount (sendMessageTrace st env) ≤ 1 ∧
    (env.respOk = false →
      NoRetryTrace (chatErrMsg env) (sendMessageTrace st env)) := by
  refine ⟨fetchCount_sendMessage st env, fun h => ?_⟩
  unfold sendMessageTrace
  split
  · exact noRetry_of_no_fetch (by simp)
  · split
    · exact noRetry_of_no_fetch (by simp)
    · split
      · exact noRetry_of_no_fetch (by simp)
      · exact noRetry_smConvPhase st env h

/-- C5, witness: a failing response at a concrete state — the trace is
the single fetch followed by the destructive toast carrying the body's
error message. -/
theorem sendMessage_error_no_retry_witness :
    fetchCount (sendMessageTrace
      ⟨true, false, false, "hi".data, false, [], some 1, []⟩
      ⟨some 1, true, true, false, some "boom".data, true, []⟩) ≤ 1 ∧
    NoRetryTrace
      (chatErrMsg ⟨some 1, true, true, false, some "boom".data, true, []⟩)
      (sendMessageTrace
        ⟨true, false, false, "hi".data, false, [], some 1, []⟩
        ⟨some 1, true, true, false, some "boom".data, true, []⟩) := by
  have h := sendMessage_error_no_retry
    ⟨true, false, false, "hi".data, false, [], some 1, []⟩
    ⟨some 1, true, true, false, some "boom".data, true, []⟩
  exact ⟨h.1, h.2 rfl⟩

/-- C6: while `isLoading` is true, `sendMessage` and
`regenerateResponse` return immediately without issuing a request — the
guards `if (!user || isLoading || isUploading) return` and
`if (!currentConversation || isLoading) return` make both traces empty,
so a second streaming read loop never starts while one is in
progress. -/
theorem loading_guard_single_consumer (st : ChatState) (env : ChatEnv)
    (i : Nat) (h : st.isLoading = true) :
    sendMessageTrace st env = [] ∧ regenerateTrace st env i = [] := by
  constructor
  · unfold sendMessageTrace
    rw [if_pos (Or.inr (Or.inl h))]
  · unfold regenerateTrace
    rw [if_pos (Or.inr h)]

/-- C6, witness: a loading state at a concrete invocation of both
functions. -/
theorem loading_guard_single_consumer_witness :
    sendMessageTrace ⟨true, true, false, "hi".data, false, [], some 1, []⟩
      ⟨some 1, true, true, true, none, true, []⟩ = [] ∧
    regenerateTrace ⟨true, true, false, "hi".data, false, [], some 1, []⟩
      ⟨some 1, true, true, true, none, true, []⟩ 1 = [] :=
  loading_guard_single_consumer _ _ 1 rfl

/-- C9: `sendMessage` validates before any write — a user message row
appears in the trace only when the trimmed input is non-empty or a file
is attached and the trimmed input has at most 4000 characters; when this
validation fails the trace contains no conversation creation and no
message insertion of any kind. -/
theorem sendMessage_validates_before_write (st : ChatState) (env : ChatEnv) :
    (∀ content, ChatAction.insertMessage "user".data content ∈
        sendMessageTrace st env →
      (jsTrim st.input ≠ [] ∨ st.hasSelectedFile = true) ∧
        (jsTrim st.input).length ≤ 4000) ∧
    (¬ ((jsTrim st.input ≠ [] ∨ st.hasSelectedFile = true) ∧
        (jsTrim st.input).length ≤ 4000) →
      noInsertActions (sendMessageTrace st env) = true) := by
  unfold sendMessageTrace
  split
  · exact ⟨fun content hm => absurd hm (List.not_mem_nil _),
      fun _ => rfl⟩
  · split
    · refine ⟨fun content hm => ?_, fun _ => rfl⟩
      simp at hm
    · rename_i h1 h2
      split
      · refine ⟨fun content hm => ?_, fun _ => rfl⟩
        simp at hm
      · rename_i h3
        have hvalid : (jsTrim st.input ≠ [] ∨ st.hasSelectedFile = true) ∧
            (jsTrim st.input).length ≤ 4000 := by
          constructor
          · by_cases he : jsTrim st.input = []
            · right
              cases hf : st.hasSelectedFile with
              | true => rfl
              | false => exact absurd ⟨he, hf⟩ h2
            · exact Or.inl he
          · by_cases he : jsTrim st.input = []
            · rw [he]
              simp
            · by_contra hlen
              exact h3 ⟨he, by omega⟩
        exact ⟨fun content _ => hvalid, fun hc => absurd hvalid hc⟩

/-- C9, witness: an all-whitespace input with no attached file — the
validation fails and the trace performs no insert of any kind. -/
theorem sendMessage_validates_before_write_witness :
    noInsertActions (sendMessageTrace
      ⟨true, false, false, "  ".data, false, [], some 1, []⟩
      ⟨some 1, true, true, true, none, true, []⟩) = true :=
  (sendMessage_validates_before_write
    ⟨true, false, false, "  ".data, false, [], some 1, []⟩
    ⟨some 1, true, true, true, none, true, []⟩).2 (by decide)

/- ===== C7: the `analyze-file` function ===== -/

/-- C7, counterexample: a CORS preflight is a request, and the handler
answers it with `new Response(null, { headers: corsHeaders })` — status
200, empty body, no JSON content type — so not every request receives a
JSON response. -/
theorem analyzeFile_responses_counterexample :
    analyzeFileHandler optionsMethod
      ⟨.ok ⟨none⟩, true, .ok (200, []), .ok 200, .ok none⟩
      = ⟨200, none, false⟩ := rfl

/-- When the phases before the gateway call succeed and the request
parsed, the file phase succeeds. -/
theorem analyzeFilePhase_ok {env : AnalyzeEnv} {req : AnalyzeReq}
    (hpre : analyzePreOk env) (hr : env.reqJson = .ok req) :
    analyzeFilePhase req env = .ok () := by
  obtain ⟨⟨req2, hreq, hcase⟩, _⟩ := hpre
  rw [hr] at hreq
  injection hreq with he
  subst he
  unfold analyzeFilePhase
  rcases hcase with him | ⟨status, text, hf, h1, h2⟩
  · simp [him]
  · split
    · rfl
    · rw [hf]
      simp [h1, h2]

/-- C7 (amended): for every request other than a CORS `OPTIONS`
preflight (which is answered 200 with an empty, non-JSON body), the
`analyze-file` function returns a JSON response and propagates vendor
errors: when the earlier phases succeed and the AI gateway responds 429
it returns 429 with the rate-limit message; 402 yields 402 with the
payment message; a 2xx gateway response with a decodable body yields 200
with an `analysis` field; and every other failure yields 500 with an
`error` message. -/
theorem analyzeFile_responses (m : Chars) (env : AnalyzeEnv)
    (hm : ¬ m = optionsMethod) :
    (analyzeFileHandler m env).body.isSome = true ∧
    (analyzeFileHandler m env).jsonContentType = true ∧
    (analyzePreOk env → env.gatewayStatus = .ok 429 →
      analyzeFileHandler m env = ⟨429, some (.errorBody
        "Rate limits exceeded, please try again later.".data), true⟩) ∧
    (analyzePreOk env → env.gatewayStatus = .ok 402 →
      analyzeFileHandler m env = ⟨402, some (.errorBody
        "Payment required, please add funds to your workspace.".data), true⟩) ∧
    (∀ status, env.gatewayStatus = .ok status → 200 ≤ status → status < 300 →
      ∀ c, env.gatewayAnalysis = .ok c → analyzePreOk env →
      (analyzeFileHandler m env).status = 200 ∧
        ∃ a, (analyzeFileHandler m env).body = some (.analysisBody a)) ∧
    ((analyzeFileHandler m env).status = 200 ∨
      (analyzeFileHandler m env).status = 429 ∨
      (analyzeFileHandler m env).status = 402 ∨
      ((analyzeFileHandler m env).status = 500 ∧
        ∃ e, (analyzeFileHandler m env).body = some (.errorBody e))) := by
  rcases hr : env.reqJson with em | req
  · have hh : analyzeFileHandler m env = ⟨500, some (.errorBody em), true⟩ := by
      simp [analyzeFileHandler, hm, hr]
    rw [hh]
    refine ⟨rfl, rfl, ?_, ?_, ?_, Or.inr (Or.inr (Or.inr ⟨rfl, em, rfl⟩))⟩
    · rintro ⟨⟨req, hreq, _⟩, _⟩ _
      rw [hr] at hreq
      cases hreq
    · rintro ⟨⟨req, hreq, _⟩, _⟩ _
      rw [hr] at hreq
      cases hreq
    · rintro _ _ _ _ _ _ ⟨⟨req, hreq, _⟩, _⟩
      rw [hr] at hreq
      cases hreq
  · cases hk : env.hasApiKey with
    | false =>
      have hh : analyzeFileHandler m env = ⟨500,
          some (.errorBody "LOVABLE_API_KEY is not configured".data), true⟩ := by
        simp [analyzeFileHandler, hm, hr, hk]
      rw [hh]
      refine ⟨rfl, rfl, ?_, ?_, ?_, Or.inr (Or.inr (Or.inr ⟨rfl, _, rfl⟩))⟩
      · rintro ⟨_, hkey⟩ _
        rw [hk] at hkey
        cases hkey
      · rintro ⟨_, hkey⟩ _
        rw [hk] at hkey
        cases hkey
      · rintro _ _ _ _ _ _ ⟨_, hkey⟩
        rw [hk] at hkey
        cases hkey
    | true =>
      rcases hf : analyzeFilePhase req env with ef | u
      · have hh : analyzeFileHandler m env = ⟨500, some (.errorBody ef), true⟩ := by
          simp [analyzeFileHandler, hm, hr, hk, hf]
        rw [hh]
        refine ⟨rfl, rfl, ?_, ?_, ?_, Or.inr (Or.inr (Or.inr ⟨rfl, ef, rfl⟩))⟩
        · intro hpre _
          rw [analyzeFilePhase_ok hpre hr] at hf
          cases hf
        · intro hpre _
          rw [analyzeFilePhase_ok hpre hr] at hf
          cases hf
        · intro _ _ _ _ _ _ hpre
          rw [analyzeFilePhase_ok hpre hr] at hf
          cases hf
      · rcases hg : env.gatewayStatus with eg | status
        · have hh : analyzeFileHandler m env = ⟨500, some (.errorBody eg), true⟩ := by
            simp [analyzeFileHandler, hm, hr, hk, hf, hg]
          rw [hh]
          refine ⟨rfl, rfl, ?_, ?_, ?_, Or.inr (Or.inr (Or.inr ⟨rfl, eg, rfl⟩))⟩
          · intro _ h429
            cases h429
          · intro _ h402
            cases h402
          · intro status hs _ _ _ _ _
            cases hs
        · by_cases h2xx : 200 ≤ status ∧ status < 300
          · rcases ha : env.gatewayAnalysis with ea | c
            · have hh : analyzeFileHandler m env
                  = ⟨500, some (.errorBody ea), true⟩ := by
                simp [analyzeFileHandler, hm, hr, hk, hf, hg, h2xx, ha]
              rw [hh]
              refine ⟨rfl, rfl, ?_, ?_, ?_,
                Or.inr (Or.inr (Or.inr ⟨rfl, ea, rfl⟩))⟩
              · intro _ h429
                injection h429 with he
                omega
              · intro _ h402
                injection h402 with he
                omega
              · intro status2 hs2 hge hlt c hc hpre
                cases hc
            · have hh : analyzeFileHandler m env
                  = ⟨200, some (.analysisBody (match c with
                      | some s => if s = [] then
                          "Unable to analyze the file.".data else s
                      | none => "Unable to analyze the file.".data)), true⟩ := by
                simp [analyzeFileHandler, hm, hr, hk, hf, hg, h2xx, ha]
                cases c <;> rfl
              rw [hh]
              refine ⟨rfl, rfl, ?_, ?_, ?_, Or.inl rfl⟩
              · intro _ h429
                injection h429 with he
                omega
              · intro _ h402
                injection h402 with he
                omega
              · intro status2 hs2 hge hlt c2 hc hpre
                exact ⟨rfl, _, rfl⟩
          · by_cases h429 : status = 429
            · have hh : analyzeFileHandler m env = ⟨429, some (.errorBody
                  "Rate limits exceeded, please try again later.".data),
                  true⟩ := by
                simp [analyzeFileHandler, hm, hr, hk, hf, hg, h2xx, h429]
              rw [hh]
              refine ⟨rfl, rfl, ?_, ?_, ?_, Or.inr (Or.inl rfl)⟩
              · intro _ _
                rfl
              · intro _ h402
                injection h402 with he
                omega
              · intro status2 hs2 hge hlt c2 hc hpre
                injection hs2 with he
                omega
            · by_cases h402 : status = 402
              · have hh : analyzeFileHandler m env = ⟨402, some (.errorBody
                    "Payment required, please add funds to your workspace.".data),
                    true⟩ := by
                  simp [analyzeFileHandler, hm, hr, hk, hf, hg, h2xx, h429, h402]
                rw [hh]
                refine ⟨rfl, rfl, ?_, ?_, ?_, Or.inr (Or.inr (Or.inl rfl))⟩
                · intro _ h429b
                  injection h429b with he
                  omega
                · intro _ _
                  rfl
                · intro status2 hs2 hge hlt c2 hc hpre
                  injection hs2 with he
                  omega
              · have hh : analyzeFileHandler m env = ⟨500,
                    some (.errorBody "AI gateway error".data), true⟩ := by
                  simp [analyzeFileHandler, hm, hr, hk, hf, hg, h2xx, h429, h402]
                rw [hh]
                refine ⟨rfl, rfl, ?_, ?_, ?_,
                  Or.inr (Or.inr (Or.inr ⟨rfl, _, rfl⟩))⟩
                · intro _ h429b
                  injection h429b with he
                  exact absurd he h429
                · intro _ h402b
                  injection h402b with he
                  exact absurd he h402
                · intro status2 hs2 hge hlt c2 hc hpre
                  injection hs2 with he
                  omega

/-- C7, witness: a POST request whose earlier phases succeed and whose
gateway answers 429 yields the 429 rate-limit response, by the amended
theorem. -/
theorem analyzeFile_responses_witness :
    analyzeFileHandler "POST".data
      ⟨.ok ⟨none⟩, true, .ok (200, []), .ok 429, .ok none⟩
      = ⟨429, some (.errorBody
        "Rate limits exceeded, please try again later.".data), true⟩ :=
  (analyzeFile_responses "POST".data
    ⟨.ok ⟨none⟩, true, .ok (200, []), .ok 429, .ok none⟩
    (by decide)).2.2.1
    ⟨⟨⟨none⟩, rfl, Or.inr ⟨200, [], rfl, by omega, by omega⟩⟩, rfl⟩ rfl


theorem runAccount_mid (t0 : Int) :
    ∀ (mid : List AccountEvent) (st : AccountState),
      st.deleted = false → (st.sched = some t0 ∨ st.sched = none) →
      (∀ e ∈ mid, (∃ t, e = AccountEvent.signIn t) ∨
        ∃ t, e = AccountEvent.runDeleteExpired t ∧ t ≤ t0 + gracePeriodDays) →
      (runAccount st mid).deleted = false ∧
        ((runAccount st mid).sched = some t0 ∨ (runAccount st mid).sched = none) := by
  intro mid
  induction mid with
  | nil =>
    intro st hd hs _
    exact ⟨hd, hs⟩
  | cons e mid ih =>
    intro st hd hs hmid
    have he := hmid e (List.mem_cons_self _ _)
    have hmid' : ∀ x ∈ mid, (∃ t, x = AccountEvent.signIn t) ∨
        ∃ t, x = AccountEvent.runDeleteExpired t ∧ t ≤ t0 + gracePeriodDays :=
      fun x hx => hmid x (List.mem_cons_of_mem _ hx)
    rw [show runAccount st (e :: mid) = runAccount (accountStep st e) mid from rfl]
    rcases he with ⟨t, he⟩ | ⟨t, he, hle⟩
    · subst he
      rcases hs with hs | hs
      · refine ih _ ?_ ?_ hmid'
        · simp [accountStep, hd, hs]
        · right
          simp [accountStep, hd, hs]
      · refine ih _ ?_ ?_ hmid'
        · simp [accountStep, hd, hs]
        · right
          simp [accountStep, hd, hs]
    · subst he
      rcases hs with hs | hs
      · have hnlt : ¬ (t0 < t - gracePeriodDays) := by
          unfold gracePeriodDays
          unfold gracePeriodDays at hle
          omega
        refine ih _ ?_ ?_ hmid'
        · simp [accountStep, hd, hs, hnlt]
        · left
          simp [accountStep, hd, hs, hnlt]
      · refine ih _ ?_ ?_ hmid'
        · simp [accountStep, hd, hs]
        · right
          simp [accountStep, hd, hs]

theorem runAccount_none :
    ∀ (post : List AccountEvent) (st : AccountState),
      st.deleted = false → st.sched = none →
      (∀ e ∈ post, ∀ t, e ≠ AccountEvent.scheduleDeletion t) →
      (runAccount st post).deleted = false := by
  intro post
  induction post with
  | nil =>
    intro st hd _ _
    exact hd
  | cons e post ih =>
    intro st hd hs hpost
    have hpost' : ∀ x ∈ post, ∀ t, x ≠ AccountEvent.scheduleDeletion t :=
      fun x hx => hpost x (List.mem_cons_of_mem _ hx)
    have hstep : accountStep st e = st := by
      cases e with
      | scheduleDeletion t => exact absurd rfl (hpost _ (List.mem_cons_self _ _) t)
      | signIn t => simp [accountStep, hd, hs]
      | runDeleteExpired t => simp [accountStep, hd, hs]
    rw [show runAccount st (e :: post) = runAccount (accountStep st e) post from rfl,
      hstep]
    exact ih st hd hs hpost'

/-- C8: the grace period is exactly 7 days.  `delete_expired_accounts`
deletes exactly the accounts whose `deletion_scheduled_at` is non-null
and more than 7 days in the past; a successful verified sign-in nulls a
pending `deletion_scheduled_at`; and an account scheduled for deletion
at `t0` whose owner signs in within the grace period — with every
intervening cleanup run at most 7 days after `t0` and no later
re-scheduling — is never deleted. -/
theorem account_deletion_grace_period :
    gracePeriodDays = 7 ∧
    (∀ (st : AccountState) (t : Int), st.deleted = false →
      ((accountStep st (AccountEvent.runDeleteExpired t)).deleted = true ↔
        ∃ s, st.sched = some s ∧ s < t - gracePeriodDays)) ∧
    (∀ (st : AccountState) (t : Int), st.deleted = false →
      (accountStep st (AccountEvent.signIn t)).sched = none) ∧
    (∀ (st : AccountState) (t0 t1 : Int) (mid post : List AccountEvent),
      st.deleted = false →
      (∀ e ∈ mid, (∃ t, e = AccountEvent.signIn t) ∨
        ∃ t, e = AccountEvent.runDeleteExpired t ∧ t ≤ t0 + gracePeriodDays) →
      t1 ≤ t0 + gracePeriodDays →
      (∀ e ∈ post, ∀ t, e ≠ AccountEvent.scheduleDeletion t) →
      (runAccount st
        (AccountEvent.scheduleDeletion t0 ::
          (mid ++ AccountEvent.signIn t1 :: post))).deleted = false) := by
  refine ⟨rfl, ?_, ?_, ?_⟩
  · intro st t hd
    cases hs : st.sched with
    | none => simp [accountStep, hd, hs]
    | some s =>
      by_cases hlt : s < t - gracePeriodDays
      · simp [accountStep, hd, hs, hlt]
      · simp [accountStep, hd, hs, hlt]
  · intro st t hd
    cases hs : st.sched with
    | none => simp [accountStep, hd, hs]
    | some s => simp [accountStep, hd, hs]
  · intro st t0 t1 mid post hd hmid ht1 hpost
    have h1 : accountStep st (AccountEvent.scheduleDeletion t0)
        = ⟨some t0, false⟩ := by
      simp [accountStep, hd]
    have hmidrun := runAccount_mid t0 mid ⟨some t0, false⟩ rfl (Or.inl rfl) hmid
    obtain ⟨hd2, hs2⟩ := hmidrun
    have hsign : (accountStep (runAccount (⟨some t0, false⟩ : AccountState) mid)
          (AccountEvent.signIn t1)).deleted = false ∧
        (accountStep (runAccount (⟨some t0, false⟩ : AccountState) mid)
          (AccountEvent.signIn t1)).sched = none := by
      rcases hs2 with hs2 | hs2 <;> simp [accountStep, hd2, hs2]
    have hsplit : runAccount st
        (AccountEvent.scheduleDeletion t0 ::
          (mid ++ AccountEvent.signIn t1 :: post))
        = runAccount (accountStep
            (runAccount (⟨some t0, false⟩ : AccountState) mid)
            (AccountEvent.signIn t1)) post := by
      unfold runAccount
      rw [List.foldl_cons, h1, List.foldl_append, List.foldl_cons]
    rw [hsplit]
    exact runAccount_none post _ hsign.1 hsign.2 hpost

/-- C8, witness: an account scheduled at day 0, with a cleanup run at
day 7, a sign-in at day 5 and a much later cleanup run, survives — by
the theorem applied at these concrete events. -/
theorem account_deletion_grace_period_witness :
    (runAccount ⟨none, false⟩
      [AccountEvent.scheduleDeletion 0, AccountEvent.runDeleteExpired 7,
       AccountEvent.signIn 5, AccountEvent.runDeleteExpired 100]).deleted
      = false :=
  account_deletion_grace_period.2.2.2 ⟨none, false⟩ 0 5
    [AccountEvent.runDeleteExpired 7] [AccountEvent.runDeleteExpired 100] rfl
    (by
      intro e he
      simp only [List.mem_singleton] at he
      subst he
      exact Or.inr ⟨7, rfl, by decide⟩)
    (by decide)
    (by
      intro e he t
      simp only [List.mem_singleton] at he
      subst he
      simp)

theorem filter_length_mono {α : Type} (f g : α → Bool) :
    ∀ L : List α, (∀ r ∈ L, f r = true → g r = true) →
      (L.filter f).length ≤ (L.filter g).length := by
  intro L
  induction L with
  | nil =>
    intro _
    simp
  | cons r L ih =>
    intro h
    have hL : ∀ x ∈ L, f x = true → g x = true :=
      fun x hx => h x (List.mem_cons_of_mem _ hx)
    have hlen := ih hL
    by_cases hf : f r = true
    · have hg := h r (List.mem_cons_self _ _) hf
      simp [List.filter_cons, hf, hg]
      omega
    · cases hg : g r <;> simp [List.filter_cons, hf, hg] <;> omega

/-- C10: the strength is 20 times the number of met requirements; the
label is Weak when exactly one requirement is met, Medium for two or
three, Strong for four or five; and the label is monotone in the set of
met requirements — a password meeting every requirement another meets
never gets a lower label. -/
theorem password_strength_monotone_labels :
    (∀ p : Chars, pwStrength p = 20 * metCount p) ∧
    (∀ p : Chars, metCount p = 1 → getStrengthLabel p = StrengthLabel.weak) ∧
    (∀ p : Chars, metCount p = 2 ∨ metCount p = 3 →
      getStrengthLabel p = StrengthLabel.medium) ∧
    (∀ p : Chars, metCount p = 4 ∨ metCount p = 5 →
      getStrengthLabel p = StrengthLabel.strong) ∧
    (∀ p q : Chars, (∀ r ∈ pwRequirements, r p = true → r q = true) →
      labelRank (getStrengthLabel p) ≤ labelRank (getStrengthLabel q)) := by
  refine ⟨?_, ?_, ?_, ?_, ?_⟩
  · intro p
    unfold pwStrength
    exact Nat.mul_comm _ _
  · intro p h
    unfold getStrengthLabel pwStrength
    rw [h]
    decide
  · intro p h
    unfold getStrengthLabel pwStrength
    rcases h with h | h <;> rw [h] <;> decide
  · intro p h
    unfold getStrengthLabel pwStrength
    rcases h with h | h <;> rw [h] <;> decide
  · intro p q hmono
    have hmc : metCount p ≤ metCount q := by
      unfold metCount
      exact filter_length_mono _ _ pwRequirements (fun r hr hrp => hmono r hr hrp)
    unfold getStrengthLabel pwStrength
    split_ifs <;> simp [labelRank] <;> omega

/-- C10, witness: a password meeting exactly the length, uppercase and
lowercase requirements is labelled Medium, by the theorem. -/
theorem password_strength_monotone_labels_witness :
    getStrengthLabel "Abcdefgh".data = StrengthLabel.medium :=
  password_strength_monotone_labels.2.2.1 "Abcdefgh".data (Or.inr (by decide))

end TvogAI